import Mathlib

/-!
Verification of the isopipe BED interval engine (`isopipe/assets/orf/bedutils/bed.py`)
and the CIGAR correction logic (`isopipe/assets/correct_minimap.py`).

The Python code is shallowly embedded: Python ints become `Int`, Python lists become
`List`, Python list indexing / slicing (with negative indices) is modelled by the
`py*` helpers below, and code paths that raise an uncaught exception are modelled by
`Option` with `none` for the exceptional outcome.
-/

namespace Isopipe

/-- Resolve a Python slice bound against a list of length `n`
(negative bounds count from the end, out-of-range bounds clamp). -/
def pyIdx (n : Nat) (i : Int) : Nat :=
  if i < 0 then ((n : Int) + i).toNat else min i.toNat n

/-- Python `l[:i]`. -/
def pySliceTo (l : List Int) (i : Int) : List Int :=
  l.take (pyIdx l.length i)

/-- Python `l[i:]`. -/
def pySliceFrom (l : List Int) (i : Int) : List Int :=
  l.drop (pyIdx l.length i)

/-- Resolve a Python element index against a list of length `n`:
`some` of the real index when in range (negative indices count from the end),
`none` when the access would raise `IndexError`. -/
def pyElemIdx (n : Nat) (i : Int) : Option Nat :=
  if 0 ≤ i ∧ i < (n : Int) then some i.toNat
  else if -(n : Int) ≤ i ∧ i < 0 then some (((n : Int) + i).toNat)
  else none

/-- Python `l[i]` for an integer list (negative indices allowed,
`none` models `IndexError`). -/
def pyGet (l : List Int) (i : Int) : Option Int :=
  match pyElemIdx l.length i with
  | none => none
  | some k => l.get? k

/-- Python `l[-1] = v` on a nonempty list. -/
def setLast (l : List Int) (v : Int) : List Int :=
  l.dropLast ++ [v]

/--
`BedRow` (the spec's IntervalRecord): the BED12 fields manipulated by the
coordinate / trimming code.  `chrom`, `id_str`, `score`, `rgb` play no role in any
claim and are omitted.
-/
structure BedRow where
  start : Int
  stop : Int
  thick_start : Int
  thick_stop : Int
  strand : String
  block_lens : List Int
  block_starts : List Int
  block_count : Int
deriving Repr, DecidableEq

/-- `BedRow.get_exon_total_length`: sum of all block lengths. -/
def get_exon_total_length (r : BedRow) : Int :=
  r.block_lens.sum

/-- `BedRow.get_total_block_length`: sum of all block lengths (alias in the source). -/
def get_total_block_length (r : BedRow) : Int :=
  r.block_lens.sum

/-- The loop of `BedRow.get_bp_pos_block`: walk over `block_lens` with running
cumulative length `curr`, current index `x`.  Falling off the end returns the
sentinel `(-1, -1)` exactly as the source does. -/
def get_bp_pos_block_go (lens : List Int) (x : Int) (curr : Int) (pos : Int) :
    Int × Int :=
  match lens with
  | [] => (-1, -1)
  | block :: rest =>
    if curr + block < pos then get_bp_pos_block_go rest (x + 1) (curr + block) pos
    else (x, pos - curr)

/-- `BedRow.get_bp_pos_block`: for a base-pair position (genomic `+` direction),
find the block containing it and the position inside that block. -/
def get_bp_pos_block (r : BedRow) (pos : Int) : Int × Int :=
  get_bp_pos_block_go r.block_lens 0 0 pos

/-- Outcome of `BedRow.genomic_position_to_block_position`:
a normal return, a raised `OutOfExonError`, the implicit `None` when the Python
loop falls through, or an `IndexError` from `block_starts[x]`. -/
inductive BlockPosResult where
  | ok (block : Nat) (delta : Int)
  | outOfExon
  | pyNone
  | indexError
deriving Repr, DecidableEq

/-- The loop of `BedRow.genomic_position_to_block_position`: iterate over
`block_lens` (index `x`), reading `block_starts[x]`. -/
def g2bp_go (base : Int) (starts : List Int) (lens : List Int) (x : Nat)
    (gpos : Int) : BlockPosResult :=
  match lens with
  | [] => .pyNone
  | block :: rest =>
    match starts.get? x with
    | none => .indexError
    | some sx =>
      if base + sx + block < gpos then g2bp_go base starts rest (x + 1) gpos
      else
        if gpos - base - sx < 0 then .outOfExon
        else .ok x (gpos - base - sx)

/-- `BedRow.genomic_position_to_block_position`: convert a genomic position into
the `(block index, offset in block)` pair; raises `OutOfExonError` when the
position is outside `[start, stop]` or falls in a gap between blocks. -/
def genomic_position_to_block_position (r : BedRow) (gpos : Int) :
    BlockPosResult :=
  if gpos < r.start ∨ gpos > r.stop then .outOfExon
  else g2bp_go r.start r.block_starts r.block_lens 0 gpos

/-- `BedRow.block_position_to_genomic_position`: convert a block position in `+`
direction into a genomic position (`none` models a raised `IndexError`). -/
def block_position_to_genomic_position (r : BedRow) (bp_pos : Int) : Option Int :=
  match pyGet r.block_starts (get_bp_pos_block r bp_pos).1 with
  | none => none
  | some s => some (r.start + s + (get_bp_pos_block r bp_pos).2)

/-- `BedRow.genomic_position_to_sequence_position`: genomic position to
strand-aware sequence position (`none` models a propagated exception). -/
def genomic_position_to_sequence_position (r : BedRow) (gpos : Int) : Option Int :=
  match genomic_position_to_block_position r gpos with
  | .ok x delta =>
    some (if r.strand = "-" then
            get_total_block_length r - ((r.block_lens.take x).sum + delta)
          else (r.block_lens.take x).sum + delta)
  | _ => none

/-- `BedRow.sequence_position_to_genomic_position`: strand-aware sequence position
back to a genomic position. -/
def sequence_position_to_genomic_position (r : BedRow) (spos : Int) : Option Int :=
  block_position_to_genomic_position r
    (if r.strand = "+" then spos else get_total_block_length r - spos)

/-- `BedRow.smooth_zero_leading_block`: drop a zero-length leading block and
renormalize offsets / `start` / `thick_start` (`none` models the `IndexError`
when no block remains). -/
def smooth_zero_leading_block (r : BedRow) : Option BedRow :=
  let lens := r.block_lens.drop 1
  let starts := r.block_starts.drop 1
  match starts.head? with
  | none => none
  | some leading =>
    let starts2 := starts.map (fun b => b - leading)
    let start2 := r.start + leading
    some { r with
      block_lens := lens
      block_starts := starts2
      start := start2
      thick_start := if r.thick_start < start2 then start2 else r.thick_start }

/-- Body of `BedRow.trim_bp_downstream` after the `bp <= 0` and strand checks
(lines 272-289 of `bed.py`). -/
def trim_down_body (r : BedRow) (bp : Int) : Option BedRow :=
  let p := get_bp_pos_block r (get_exon_total_length r - bp)
  let starts := pySliceTo r.block_starts (p.1 + 1)
  let lens := pySliceTo r.block_lens (p.1 + 1)
  match lens.getLast? with
  | none => none
  | some lastLen =>
    let lens2 := if p.2 ≠ lastLen then setLast lens p.2 else lens
    match starts.getLast?, lens2.getLast? with
    | some lastStart, some lastLen2 =>
      let stop2 := r.start + lastStart + lastLen2
      some { r with
        block_starts := starts
        block_lens := lens2
        block_count := p.1 + 1
        stop := stop2
        thick_stop := if r.thick_stop > stop2 then stop2 else r.thick_stop }
    | _, _ => none

/-- Body of `BedRow.trim_bp_upstream` after the `bp <= 0` and strand checks
(lines 304-325 of `bed.py`). -/
def trim_up_body (r : BedRow) (bp : Int) : Option BedRow :=
  let p := get_bp_pos_block r bp
  let starts := pySliceFrom r.block_starts p.1
  let lens := pySliceFrom r.block_lens p.1
  match lens.head?, starts.head? with
  | some l0, some s0 =>
    let lens2 := (l0 - p.2) :: lens.tail
    let starts2 := (s0 + p.2) :: starts.tail
    let shift := s0 + p.2
    let start2 := r.start + shift
    let r2 : BedRow := { r with
      block_lens := lens2
      block_starts := starts2.map (fun x => x - shift)
      block_count := r.block_count - p.1
      start := start2
      thick_start := if r.thick_start < start2 then start2 else r.thick_start }
    if l0 - p.2 = 0 then smooth_zero_leading_block r2 else some r2
  | _, _ => none

/-- `BedRow.trim_bp_downstream` with the default `allow_invert=True`:
no-op for `bp <= 0`, delegates to the upstream body on the `-` strand. -/
def trim_bp_downstream (r : BedRow) (bp : Int) : Option BedRow :=
  if bp ≤ 0 then some r
  else if r.strand = "-" then trim_up_body r bp
  else trim_down_body r bp

/-- `BedRow.trim_bp_upstream` with the default `allow_invert=True`:
no-op for `bp <= 0`, delegates to the downstream body on the `-` strand. -/
def trim_bp_upstream (r : BedRow) (bp : Int) : Option BedRow :=
  if bp ≤ 0 then some r
  else if r.strand = "-" then trim_down_body r bp
  else trim_up_body r bp

/-- Validity of a `BedRow` (the spec's §3 data-model invariants): a known strand,
at least one block, matching array lengths, positive block lengths, non-negative
ordered non-overlapping offsets, consistent `stop`, and the thick chain. -/
def Valid (r : BedRow) : Prop :=
  (r.strand = "+" ∨ r.strand = "-") ∧
  0 < r.block_lens.length ∧
  r.block_starts.length = r.block_lens.length ∧
  (∀ i < r.block_lens.length, 0 < r.block_lens.getD i 0) ∧
  (∀ i < r.block_lens.length, 0 ≤ r.block_starts.getD i 0) ∧
  (∀ i < r.block_lens.length, i + 1 < r.block_lens.length →
    r.block_starts.getD i 0 + r.block_lens.getD i 0 ≤ r.block_starts.getD (i + 1) 0) ∧
  r.start < r.stop ∧
  r.start ≤ r.thick_start ∧ r.thick_start ≤ r.thick_stop ∧ r.thick_stop ≤ r.stop ∧
  r.stop = r.start + r.block_starts.getD (r.block_lens.length - 1) 0 +
    r.block_lens.getD (r.block_lens.length - 1) 0

/-- The structural part of the trim invariants (everything in `Valid` except the
`thick_start ≤ thick_stop` link, which the code does not maintain). -/
def StructInv (r : BedRow) : Prop :=
  0 < r.block_lens.length ∧
  r.block_starts.length = r.block_lens.length ∧
  (∀ i < r.block_lens.length, 0 < r.block_lens.getD i 0) ∧
  (∀ i < r.block_lens.length, 0 ≤ r.block_starts.getD i 0) ∧
  (∀ i < r.block_lens.length, i + 1 < r.block_lens.length →
    r.block_starts.getD i 0 + r.block_lens.getD i 0 ≤ r.block_starts.getD (i + 1) 0) ∧
  r.start < r.stop ∧
  r.start ≤ r.thick_start ∧ r.thick_stop ≤ r.stop ∧
  r.stop = r.start + r.block_starts.getD (r.block_lens.length - 1) 0 +
    r.block_lens.getD (r.block_lens.length - 1) 0

/-- A concrete valid two-block record on the `+` strand, used by witnesses. -/
def rEx : BedRow :=
  { start := 10, stop := 40, thick_start := 15, thick_stop := 35,
    strand := "+", block_lens := [10, 5], block_starts := [0, 25],
    block_count := 2 }

/-- The same record on the `-` strand. -/
def rExNeg : BedRow :=
  { rEx with strand := "-" }

/-- A single-block record whose thick region sits near the downstream end,
used to exhibit the missing `thick_start` clamp. -/
def rThick : BedRow :=
  { start := 0, stop := 10, thick_start := 8, thick_stop := 10,
    strand := "+", block_lens := [10], block_starts := [0],
    block_count := 1 }

/-! ### CIGAR model (`correct_minimap.py`) -/

/-- `CigarFeature`: one run-length-encoded CIGAR operation. -/
structure CigarFeature where
  symbol : String
  size : Int
deriving Repr, DecidableEq

/-- Python `list.insert(i, x)` (negative indices count from the end and clamp). -/
def pyInsert (l : List CigarFeature) (i : Int) (x : CigarFeature) :
    List CigarFeature :=
  let k := if i < 0 then ((l.length : Int) + i).toNat else min i.toNat l.length
  l.take k ++ x :: l.drop k

/-- Python `l[i].size = f(l[i].size)` on a feature list (`none` = `IndexError`). -/
def pyModifySize (l : List CigarFeature) (i : Int) (f : Int → Int) :
    Option (List CigarFeature) :=
  match pyElemIdx l.length i with
  | none => none
  | some k =>
    match l.get? k with
    | none => none
    | some c => some (l.set k { c with size := f c.size })

/-- The `+`-strand CIGAR rewrite of `correct_minimap.py` (lines 558-577):
shrink `features[-2]` by the wiggle, insert an `N` gap of `dist + wiggle` at
index `-1`, insert an `=` run of the clip length at index `-1`, and shrink the
trailing soft-clip by `clipLen - wiggle`. -/
def plusStrandCigarRewrite (feats : List CigarFeature)
    (wiggle dist clipLen : Int) : Option (List CigarFeature) :=
  match pyModifySize feats (-2) (fun s => s - wiggle) with
  | none => none
  | some f1 =>
    let f2 := pyInsert f1 (-1) ⟨"N", dist + wiggle⟩
    let f3 := pyInsert f2 (-1) ⟨"=", clipLen⟩
    pyModifySize f3 (-1) (fun s => s - clipLen + wiggle)

/-- Worker for `natDigits`, structurally recursive on a fuel bound. -/
def natDigitsGo (fuel n : Nat) : List Char :=
  match fuel with
  | 0 => []
  | fuel + 1 =>
    if n < 10 then [Char.ofNat (48 + n)]
    else natDigitsGo fuel (n / 10) ++ [Char.ofNat (48 + n % 10)]

/-- Decimal digit characters of a natural number (what Python's
`f-string` produces for a non-negative int). -/
def natDigits (n : Nat) : List Char :=
  natDigitsGo (n + 1) n

/-- Decimal character run of a Python int (negative ints get a sign). -/
def intToChars (i : Int) : List Char :=
  if i < 0 then Char.ofNat 45 :: natDigits (-i).toNat else natDigits i.toNat

/-- Python `int("".join(digits))` on a digit run. -/
def digitsToInt (ds : List Char) : Int :=
  ds.foldl (fun a c => a * 10 + ((c.toNat : Int) - 48)) 0

/-- `Cigar.__str__` for one feature: `f"{size}{symbol}"`. -/
def cigarFeatureChars (c : CigarFeature) : List Char :=
  intToChars c.size ++ c.symbol.toList

/-- `Cigar.__str__`: concatenation of `{size}{symbol}` runs. -/
def cigarToString (fs : List CigarFeature) : String :=
  String.mk ((fs.map cigarFeatureChars).flatten)

/-- `Cigar.__init__`: group the operation string into alternating digit /
non-digit runs and pair them into features.  `none` models the `ValueError`
on a leading non-digit run and the `StopIteration` on a trailing digit run. -/
def cigarParseChars (cs : List Char) : Option (List CigarFeature) :=
  match cs with
  | [] => some []
  | c0 :: rest0 =>
    let ds := (c0 :: rest0).takeWhile (fun c => c.isDigit)
    let r1 := (c0 :: rest0).dropWhile (fun c => c.isDigit)
    let sym := r1.takeWhile (fun c => !c.isDigit)
    let r2 := r1.dropWhile (fun c => !c.isDigit)
    if ds = [] then none
    else if sym = [] then none
    else
      match cigarParseChars r2 with
      | none => none
      | some fs => some (⟨String.mk sym, digitsToInt ds⟩ :: fs)
termination_by cs.length
decreasing_by
  simp only [List.length_cons]
  by_cases hc : c0.isDigit
  · rw [List.dropWhile_cons_of_pos (by simpa using hc)]
    have h2 : ((rest0.dropWhile (fun c => c.isDigit)).dropWhile
        (fun c => !c.isDigit)).length ≤
        (rest0.dropWhile (fun c => c.isDigit)).length :=
      (List.dropWhile_sublist _).length_le
    have h3 : (rest0.dropWhile (fun c => c.isDigit)).length ≤ rest0.length :=
      (List.dropWhile_sublist _).length_le
    omega
  · rw [List.dropWhile_cons_of_neg (by simpa using hc),
      List.dropWhile_cons_of_pos (by simp [hc])]
    have h3 : (rest0.dropWhile (fun c => !c.isDigit)).length ≤ rest0.length :=
      (List.dropWhile_sublist _).length_le
    omega

/-- `Cigar` applied to a Python string. -/
def cigarOfString (s : String) : Option (List CigarFeature) :=
  cigarParseChars s.toList

/-- Well-formed operation lists: positive sizes, one non-digit character per
operation symbol. -/
def WFOps (fs : List CigarFeature) : Prop :=
  ∀ f ∈ fs, 0 < f.size ∧ f.symbol.toList.length = 1 ∧
    ∀ c ∈ f.symbol.toList, c.isDigit = false

/-! ### De-duplication model (`correct_minimap.py` lines 620-644) -/

/-- One correction candidate reaching the output loop: the read id, the
corrected CIGAR string, the read's original SAM flag, and the value of the
stale `strand` variable visible at line 633. -/
structure Cand where
  sid : String
  cigar : String
  flag : Nat
  strandVar : String
deriving Repr, DecidableEq

/-- One emitted or discarded SAM row: read id, flag field, CIGAR string. -/
structure EmitRow where
  sid : String
  flag : Nat
  cigar : String
deriving Repr, DecidableEq

/-- The accumulation state of the output loop: the `tracked_cigars` dict, the
rows written to `corrected.sam`, and the `discarded_cigars` list. -/
structure DedupState where
  tracked : List (String × List String)
  emitted : List EmitRow
  discarded : List EmitRow
deriving Repr, DecidableEq

/-- Python `dict[k] = v`. -/
def dictSet (d : List (String × List String)) (k : String) (v : List String) :
    List (String × List String) :=
  match d with
  | [] => [(k, v)]
  | (k2, v2) :: rest =>
    if k2 = k then (k, v) :: rest else (k2, v2) :: dictSet rest k v

/-- One iteration of the `tracked_cigars` output loop: a first candidate for a
read is written with its original flag; a duplicate corrected CIGAR is
appended to `discarded_cigars`; a new distinct corrected CIGAR is written with
a fresh flag of `(16 if strand == "-" else 0) + 256`. -/
def dedupStep (st : DedupState) (c : Cand) : DedupState :=
  match List.lookup c.sid st.tracked with
  | none =>
    { tracked := dictSet st.tracked c.sid [c.cigar]
      emitted := st.emitted ++ [⟨c.sid, c.flag, c.cigar⟩]
      discarded := st.discarded }
  | some old =>
    if c.cigar ∈ old then
      { tracked := st.tracked
        emitted := st.emitted
        discarded := st.discarded ++ [⟨c.sid, c.flag, c.cigar⟩] }
    else
      { tracked := dictSet st.tracked c.sid (old ++ [c.cigar])
        emitted := st.emitted ++
          [⟨c.sid, (if c.strandVar = "-" then 16 else 0) + 256, c.cigar⟩]
        discarded := st.discarded }

/-- The whole output loop over the candidate list. -/
def runDedup (cands : List Cand) : DedupState :=
  cands.foldl dedupStep ⟨[], [], []⟩

/-- The corrected CIGAR strings emitted so far for one read, in order. -/
def emittedFor (em : List EmitRow) (sid : String) : List String :=
  (em.filter (fun e => e.sid == sid)).map (fun e => e.cigar)

instance (fs : List CigarFeature) : Decidable (WFOps fs) := by
  unfold WFOps; exact inferInstance

instance (r : BedRow) : Decidable (Valid r) := by
  unfold Valid; exact inferInstance

instance (r : BedRow) : Decidable (StructInv r) := by
  unfold StructInv; exact inferInstance

/-! ### List helper lemmas -/

theorem get?_eq_getD : ∀ (l : List Int) (i : Nat), i < l.length →
    l.get? i = some (l.getD i 0) := by
  intro l
  induction l with
  | nil => intro i h; simp at h
  | cons a t ih =>
    intro i h
    cases i with
    | zero => rfl
    | succ m => exact ih m (by simpa using h)

theorem drop_eq_getD_cons : ∀ (l : List Int) (i : Nat), i < l.length →
    l.drop i = l.getD i 0 :: l.drop (i + 1) := by
  intro l
  induction l with
  | nil => intro i h; simp at h
  | cons a t ih =>
    intro i h
    cases i with
    | zero => rfl
    | succ m =>
      have := ih m (by simpa using h)
      simpa using this

theorem sumTake_succ : ∀ (l : List Int) (i : Nat), i < l.length →
    (l.take (i + 1)).sum = (l.take i).sum + l.getD i 0 := by
  intro l
  induction l with
  | nil => intro i h; simp at h
  | cons a t ih =>
    intro i h
    cases i with
    | zero => simp
    | succ m =>
      have := ih m (by simpa using h)
      simp [List.take_succ_cons, this]
      ring

theorem sumTake_nonneg : ∀ (l : List Int) (i : Nat),
    (∀ m, m < l.length → 0 ≤ l.getD m 0) → 0 ≤ (l.take i).sum := by
  intro l
  induction l with
  | nil => intro i _; simp
  | cons a t ih =>
    intro i h
    cases i with
    | zero => simp
    | succ m =>
      have h0 : 0 ≤ a := h 0 (by simp)
      have ht : 0 ≤ (t.take m).sum :=
        ih m (fun k hk => h (k + 1) (by simpa using hk))
      simp only [List.take_succ_cons, List.sum_cons]
      omega

theorem sumTake_mono : ∀ (l : List Int) (i j : Nat), i ≤ j →
    (∀ m, m < l.length → 0 ≤ l.getD m 0) →
    (l.take i).sum ≤ (l.take j).sum := by
  intro l
  induction l with
  | nil => intro i j _ _; simp
  | cons a t ih =>
    intro i j hij h
    cases i with
    | zero =>
      simpa using sumTake_nonneg (a :: t) j h
    | succ m =>
      cases j with
      | zero => omega
      | succ k =>
        have := ih m k (by omega) (fun q hq => h (q + 1) (by simpa using hq))
        simp only [List.take_succ_cons, List.sum_cons]
        omega

theorem sumTake_le_sum : ∀ (l : List Int) (i : Nat),
    (∀ m, m < l.length → 0 ≤ l.getD m 0) → (l.take i).sum ≤ l.sum := by
  intro l i h
  rcases le_total i l.length with hle | hge
  · have := sumTake_mono l i l.length hle h
    simpa [List.take_length] using this
  · rw [List.take_of_length_le hge]

/-! ### `get_bp_pos_block` characterization -/

/-- Full characterization of the `get_bp_pos_block` walk on a position inside
the blocks: it stops at the first block whose cumulative length reaches `pos`. -/
theorem get_bp_go_spec : ∀ (l : List Int) (k : Int) (curr pos : Int),
    (∀ m, m < l.length → 0 < l.getD m 0) → l ≠ [] → pos ≤ curr + l.sum →
    ∃ j : Nat, j < l.length ∧
      get_bp_pos_block_go l k curr pos = (k + (j : Int), pos - (curr + (l.take j).sum)) ∧
      pos ≤ curr + (l.take (j + 1)).sum ∧
      (j = 0 ∨ curr + (l.take j).sum < pos) := by
  intro l
  induction l with
  | nil => intro k curr pos _ hne _; exact absurd rfl hne
  | cons b rest ih =>
    intro k curr pos hpos _ hle
    by_cases hadv : curr + b < pos
    · have hrest : rest ≠ [] := by
        intro hr
        rw [hr] at hle
        simp at hle
        omega
      have hrpos : ∀ m, m < rest.length → 0 < rest.getD m 0 := by
        intro m hm
        have := hpos (m + 1) (by simpa using hm)
        simpa using this
      have hle2 : pos ≤ (curr + b) + rest.sum := by
        simp only [List.sum_cons] at hle
        omega
      obtain ⟨j, hj, heq, hub, hlb⟩ := ih (k + 1) (curr + b) pos hrpos hrest hle2
      refine ⟨j + 1, by simpa using Nat.succ_lt_succ hj, ?_, ?_, ?_⟩
      · simp only [get_bp_pos_block_go, if_pos hadv, heq,
          List.take_succ_cons, List.sum_cons]
        refine Prod.ext ?_ ?_
        · push_cast
          ring
        · simp only
          ring
      · simpa [List.take_succ_cons, List.sum_cons, add_assoc] using hub
      · right
        rcases hlb with h0 | hlt
        · subst h0; simpa using hadv
        · simp only [List.take_succ_cons, List.sum_cons]
          omega
    · refine ⟨0, by simp, ?_, ?_, Or.inl rfl⟩
      · simp [get_bp_pos_block_go, if_neg hadv]
      · simp only [List.take_succ_cons, List.take_zero, List.sum_cons, List.sum_nil]
        omega

/-! ### Genomic-to-block walk -/

/-- Transitive consequence of the pairwise block ordering: an earlier block ends
no later than a later block starts. -/
theorem chain_trans (S L : List Int) (hpos : ∀ m, m < L.length → 0 < L.getD m 0)
    (hchain : ∀ m, m < L.length → m + 1 < L.length →
      S.getD m 0 + L.getD m 0 ≤ S.getD (m + 1) 0) :
    ∀ i j, i < j → j < L.length → S.getD i 0 + L.getD i 0 ≤ S.getD j 0 := by
  intro i j
  induction j with
  | zero => intro h _; omega
  | succ k ih =>
    intro hij hj
    rcases Nat.lt_succ_iff_lt_or_eq.mp hij with h | h
    · have h1 := ih h (by omega)
      have h2 := hchain k (by omega) hj
      have h3 := hpos k (by omega)
      omega
    · subst h
      exact hchain i (by omega) hj

/-- The `genomic_position_to_block_position` loop reaches block `j` and reports
offset `δ` when all earlier blocks end strictly before the query position. -/
theorem g2bp_go_ok (base : Int) (S L : List Int) (hlen : S.length = L.length)
    (j : Nat) (δ : Int) (hj : j < L.length) (h0 : 0 ≤ δ) (hδ : δ ≤ L.getD j 0)
    (hadv : ∀ m, m < j → base + S.getD m 0 + L.getD m 0 <
      base + S.getD j 0 + δ) :
    ∀ d i, i ≤ j → j - i = d →
      g2bp_go base S (L.drop i) i (base + S.getD j 0 + δ) = .ok j δ := by
  intro d
  induction d with
  | zero =>
    intro i hij hd
    have hji : i = j := by omega
    subst hji
    rw [drop_eq_getD_cons L i hj]
    simp only [g2bp_go]
    rw [get?_eq_getD S i (by omega)]
    have hnot : ¬ (base + S.getD i 0 + L.getD i 0 < base + S.getD i 0 + δ) := by
      omega
    simp only [if_neg hnot]
    have hnot2 : ¬ (base + S.getD i 0 + δ - base - S.getD i 0 < 0) := by omega
    simp only [if_neg hnot2]
    congr 1
    omega
  | succ d ih =>
    intro i hij hd
    have hlt : i < j := by omega
    rw [drop_eq_getD_cons L i (by omega)]
    simp only [g2bp_go]
    rw [get?_eq_getD S i (by omega)]
    simp only [if_pos (hadv i hlt)]
    exact ih (i + 1) (by omega) (by omega)

/-- Entering `genomic_position_to_block_position` at the genomic position
`start + offset[j] + δ` with `0 ≤ δ ≤ length[j]` (and `1 ≤ δ` unless `j = 0`)
yields `(j, δ)`. -/
theorem g2bp_ok_of (r : BedRow) (hv : Valid r) (j : Nat) (δ : Int)
    (hj : j < r.block_lens.length) (h0 : 0 ≤ δ)
    (hδ : δ ≤ r.block_lens.getD j 0) (hδ1 : 1 ≤ δ ∨ j = 0) :
    genomic_position_to_block_position r
      (r.start + r.block_starts.getD j 0 + δ) = .ok j δ := by
  obtain ⟨_, hn, hlen, hLpos, hSpos, hchain, _, _, _, _, hstop⟩ := hv
  have hlast : j = r.block_lens.length - 1 ∨ j < r.block_lens.length - 1 := by
    omega
  have hgub : r.block_starts.getD j 0 + δ ≤
      r.block_starts.getD (r.block_lens.length - 1) 0 +
      r.block_lens.getD (r.block_lens.length - 1) 0 := by
    rcases hlast with h | h
    · subst h; omega
    · have h1 := chain_trans r.block_starts r.block_lens hLpos hchain j
        (r.block_lens.length - 1) (by omega) (by omega)
      have h2 := hLpos (r.block_lens.length - 1) (by omega)
      omega
  have hbounds : ¬ (r.start + r.block_starts.getD j 0 + δ < r.start ∨
      r.start + r.block_starts.getD j 0 + δ > r.stop) := by
    have hS := hSpos j hj
    push_neg
    constructor
    · omega
    · omega
  unfold genomic_position_to_block_position
  rw [if_neg hbounds]
  have hadv : ∀ m, m < j → r.start + r.block_starts.getD m 0 +
      r.block_lens.getD m 0 < r.start + r.block_starts.getD j 0 + δ := by
    intro m hm
    have h1 := chain_trans r.block_starts r.block_lens hLpos hchain m j hm hj
    have hδ1' : 1 ≤ δ := by
      rcases hδ1 with h | h
      · exact h
      · omega
    omega
  have := g2bp_go_ok r.start r.block_starts r.block_lens hlen j δ hj h0 hδ hadv
    j 0 (by omega) (by omega)
  simpa using this

/-! ### Claim C1: sequence-position round trip -/

/--
C1: for every valid `IntervalRecord` (on either strand) and every sequence
position `seq_pos` in `[0, total_block_length)`,
`genomic_position_to_sequence_position (sequence_position_to_genomic_position
seq_pos) = seq_pos`.
-/
theorem c1_sequence_roundtrip (r : BedRow) (hv : Valid r) (spos : Int)
    (h0 : 0 ≤ spos) (hlt : spos < get_total_block_length r) :
    ∃ g, sequence_position_to_genomic_position r spos = some g ∧
      genomic_position_to_sequence_position r g = some spos := by
  obtain ⟨hstrand, hn, hlen, hLpos, hSpos, hchain, _, _, _, _, hstop⟩ := hv
  set L := r.block_lens with hL
  set S := r.block_starts with hS
  have htot : get_total_block_length r = L.sum := rfl
  rw [htot] at hlt
  set pos : Int := if r.strand = "+" then spos else L.sum - spos
    with hpos
  have hpos0 : 0 ≤ pos := by
    rw [hpos]
    split
    · exact h0
    · omega
  have hpostot : pos ≤ L.sum := by
    rw [hpos]
    split
    · exact le_of_lt hlt
    · omega
  have hminus1 : r.strand ≠ "+" → 1 ≤ pos := by
    intro hne
    rw [hpos, if_neg hne]
    omega
  obtain ⟨j, hj, heq, hub, hlb⟩ := get_bp_go_spec L 0 0 pos hLpos
    (List.length_pos.mp hn) (by simpa using hpostot)
  set rem : Int := pos - (L.take j).sum with hrem
  have hcum1 : (L.take (j + 1)).sum = (L.take j).sum + L.getD j 0 :=
    sumTake_succ L j hj
  have hrem0 : 0 ≤ rem := by
    rcases hlb with h | h
    · subst h
      simp [hrem, hpos0]
    · omega
  have hremle : rem ≤ L.getD j 0 := by
    rw [hrem]
    simp only [zero_add] at hub
    omega
  have hrem1 : 1 ≤ rem ∨ j = 0 := by
    rcases hlb with h | h
    · right; exact h
    · left; omega
  have hgb : get_bp_pos_block r pos = ((j : Int), rem) := by
    unfold get_bp_pos_block
    rw [← hL, heq]
    simp [hrem]
  have hpyget : pyGet S (j : Int) = some (S.getD j 0) := by
    unfold pyGet pyElemIdx
    have hjS : (j : Int) < (S.length : Int) := by
      rw [hlen]
      exact_mod_cast hj
    rw [if_pos ⟨Int.natCast_nonneg j, hjS⟩]
    simp only [Int.toNat_natCast]
    exact get?_eq_getD S j (by omega)
  have hs2g : sequence_position_to_genomic_position r spos =
      some (r.start + S.getD j 0 + rem) := by
    unfold sequence_position_to_genomic_position
      block_position_to_genomic_position
    rw [htot, ← hpos, hgb]
    simp only [← hS, hpyget]
  refine ⟨r.start + S.getD j 0 + rem, hs2g, ?_⟩
  have hok : genomic_position_to_block_position r
      (r.start + S.getD j 0 + rem) = .ok j rem := by
    have := g2bp_ok_of r
      ⟨hstrand, hn, hlen, hLpos, hSpos, hchain, by assumption, by assumption,
        by assumption, by assumption, hstop⟩ j rem hj hrem0 hremle hrem1
    exact this
  have hred : genomic_position_to_sequence_position r
      (r.start + S.getD j 0 + rem) =
      some (if r.strand = "-" then L.sum - ((L.take j).sum + rem)
            else (L.take j).sum + rem) := by
    unfold genomic_position_to_sequence_position
    rw [hok]
    rfl
  rw [hred]
  have hwalked : (L.take j).sum + rem = pos := by
    rw [hrem]; ring
  rw [hwalked]
  rcases hstrand with hplus | hminus
  · have hne : r.strand ≠ "-" := by
      rw [hplus]
      decide
    simp only [if_neg hne]
    rw [hpos, if_pos hplus]
  · have hne : ¬ (r.strand = "+") := by
      rw [hminus]
      decide
    simp only [if_pos hminus]
    rw [hpos, if_neg hne]
    congr 1
    omega

/-- Witness for C1 at the concrete record `rEx` and sequence position 3. -/
theorem c1_sequence_roundtrip_witness :
    Valid rEx ∧
    ∃ g, sequence_position_to_genomic_position rEx 3 = some g ∧
      genomic_position_to_sequence_position rEx g = some 3 :=
  ⟨by decide, c1_sequence_roundtrip rEx (by decide) 3 (by decide) (by decide)⟩

/-! ### Claims C4, C9, C10 -/

/-- A list with non-negative entries (indexed form) has a non-negative sum. -/
theorem sum_nonneg_getD : ∀ (l : List Int),
    (∀ m, m < l.length → 0 ≤ l.getD m 0) → 0 ≤ l.sum := by
  intro l
  induction l with
  | nil => intro _; simp
  | cons a t ih =>
    intro h
    have h0 := h 0 (by simp)
    have ht := ih (fun m hm => h (m + 1) (by simpa using hm))
    simp only [List.sum_cons]
    simp only [List.getD_cons_zero] at h0
    omega

/-- The `get_bp_pos_block` walk falls off the end (sentinel `(-1, -1)`) whenever
the queried position exceeds the remaining cumulative length. -/
theorem get_bp_go_fall : ∀ (l : List Int) (k curr pos : Int),
    (∀ m, m < l.length → 0 < l.getD m 0) → curr + l.sum < pos →
    get_bp_pos_block_go l k curr pos = (-1, -1) := by
  intro l
  induction l with
  | nil => intro k curr pos _ _; rfl
  | cons b rest ih =>
    intro k curr pos hpos hlt
    have hrest : 0 ≤ rest.sum := by
      refine sum_nonneg_getD rest (fun m hm => ?_)
      have := hpos (m + 1) (by simpa using hm)
      simp only [List.getD_cons_succ] at this
      omega
    have hadv : curr + b < pos := by
      simp only [List.sum_cons] at hlt
      omega
    simp only [get_bp_pos_block_go, if_pos hadv]
    refine ih (k + 1) (curr + b) pos (fun m hm => ?_) ?_
    · have := hpos (m + 1) (by simpa using hm)
      simpa using this
    · simp only [List.sum_cons] at hlt
      omega

/-- The `genomic_position_to_block_position` loop is unchanged by skipping an
initial segment of blocks that all end strictly before the query position. -/
theorem g2bp_go_advance (base : Int) (S L : List Int) (hlen : S.length = L.length)
    (t : Nat) (ht : t ≤ L.length) (gpos : Int)
    (hadv : ∀ m, m < t → base + S.getD m 0 + L.getD m 0 < gpos) :
    ∀ d i, i ≤ t → t - i = d →
      g2bp_go base S (L.drop i) i gpos = g2bp_go base S (L.drop t) t gpos := by
  intro d
  induction d with
  | zero =>
    intro i hit hd
    have : i = t := by omega
    subst this
    rfl
  | succ d ih =>
    intro i hit hd
    have hlt : i < t := by omega
    rw [drop_eq_getD_cons L i (by omega)]
    simp only [g2bp_go]
    rw [get?_eq_getD S i (by omega)]
    simp only [if_pos (hadv i hlt)]
    exact ih (i + 1) (by omega) (by omega)

/--
C4: for every valid `IntervalRecord`, `genomic_position_to_block_position`
raises `OutOfExonError` (never returns a block index) for every position
outside `[start, stop]`, and also for every position strictly inside a gap
between two consecutive blocks (negative within-block remainder).
-/
theorem c4_out_of_range_rejection (r : BedRow) (hv : Valid r) (gpos : Int) :
    ((gpos < r.start ∨ gpos > r.stop) →
      genomic_position_to_block_position r gpos = .outOfExon) ∧
    (∀ i : Nat, i + 1 < r.block_lens.length →
      r.start + r.block_starts.getD i 0 + r.block_lens.getD i 0 < gpos →
      gpos < r.start + r.block_starts.getD (i + 1) 0 →
      genomic_position_to_block_position r gpos = .outOfExon) := by
  obtain ⟨_, hn, hlen, hLpos, hSpos, hchain, _, _, _, _, hstop⟩ := hv
  constructor
  · intro h
    unfold genomic_position_to_block_position
    rw [if_pos h]
  · intro i hi hlow hhigh
    have hSi := hSpos i (by omega)
    have hLi := hLpos i (by omega)
    have hup : r.block_starts.getD (i + 1) 0 ≤
        r.block_starts.getD (r.block_lens.length - 1) 0 := by
      rcases Nat.lt_or_ge (i + 1) (r.block_lens.length - 1) with h | h
      · have := chain_trans r.block_starts r.block_lens hLpos hchain (i + 1)
          (r.block_lens.length - 1) h (by omega)
        have := hLpos (i + 1) (by omega)
        omega
      · have : i + 1 = r.block_lens.length - 1 := by omega
        rw [this]
    have hbounds : ¬ (gpos < r.start ∨ gpos > r.stop) := by
      push_neg
      have := hLpos (r.block_lens.length - 1) (by omega)
      constructor
      · omega
      · omega
    unfold genomic_position_to_block_position
    rw [if_neg hbounds]
    have hadv : ∀ m, m < i + 1 → r.start + r.block_starts.getD m 0 +
        r.block_lens.getD m 0 < gpos := by
      intro m hm
      rcases Nat.lt_or_ge m i with h | h
      · have := chain_trans r.block_starts r.block_lens hLpos hchain m i h
          (by omega)
        omega
      · have : m = i := by omega
        subst this
        exact hlow
    have hskip := g2bp_go_advance r.start r.block_starts r.block_lens hlen
      (i + 1) (by omega) gpos hadv (i + 1) 0 (by omega) (by omega)
    simp only [List.drop_zero] at hskip
    rw [hskip, drop_eq_getD_cons r.block_lens (i + 1) (by omega)]
    simp only [g2bp_go]
    rw [get?_eq_getD r.block_starts (i + 1) (by omega)]
    have hnadv : ¬ (r.start + r.block_starts.getD (i + 1) 0 +
        r.block_lens.getD (i + 1) 0 < gpos) := by
      have := hLpos (i + 1) (by omega)
      omega
    have hneg : gpos - r.start - r.block_starts.getD (i + 1) 0 < 0 := by omega
    simp only [if_neg hnadv, if_pos hneg]

/-- Witness for C4: position 5 is left of `rEx.start = 10`, and position 22
falls in the gap between the two blocks of `rEx` (`[10,20) ∪ [35,40)`). -/
theorem c4_out_of_range_rejection_witness :
    genomic_position_to_block_position rEx 5 = .outOfExon ∧
    genomic_position_to_block_position rEx 22 = .outOfExon :=
  ⟨(c4_out_of_range_rejection rEx (by decide) 5).1 (Or.inl (by decide)),
   (c4_out_of_range_rejection rEx (by decide) 22).2 0 (by decide) (by decide)
     (by decide)⟩

/--
C9: trimming by zero or a negative number of base pairs is a no-op for both
`trim_bp_upstream` and `trim_bp_downstream`: no exception, and every field of
the record is unchanged.
-/
theorem c9_trim_noop (r : BedRow) (bp : Int) (h : bp ≤ 0) :
    trim_bp_downstream r bp = some r ∧ trim_bp_upstream r bp = some r := by
  unfold trim_bp_downstream trim_bp_upstream
  rw [if_pos h, if_pos h]
  exact ⟨rfl, rfl⟩

/-- Witness for C9 at `rEx` with `bp = 0`. -/
theorem c9_trim_noop_witness :
    trim_bp_downstream rEx 0 = some rEx ∧ trim_bp_upstream rEx 0 = some rEx :=
  c9_trim_noop rEx 0 (by decide)

/--
C10: calling `block_position_to_genomic_position` with a walked offset strictly
greater than the total block length does not raise: `get_bp_pos_block` returns
the sentinel `(-1, -1)`, and the function returns
`start + block_offsets[-1] - 1` — a silently wrong genomic position.
-/
theorem c10_overwalk_silent_position (r : BedRow) (hv : Valid r) (pos : Int)
    (h : get_total_block_length r < pos) :
    get_bp_pos_block r pos = (-1, -1) ∧
    block_position_to_genomic_position r pos =
      some (r.start + r.block_starts.getD (r.block_starts.length - 1) 0 - 1) := by
  obtain ⟨_, hn, hlen, hLpos, hSpos, hchain, _, _, _, _, hstop⟩ := hv
  have hfall : get_bp_pos_block r pos = (-1, -1) := by
    unfold get_bp_pos_block
    refine get_bp_go_fall r.block_lens 0 0 pos hLpos ?_
    unfold get_total_block_length at h
    omega
  refine ⟨hfall, ?_⟩
  unfold block_position_to_genomic_position
  rw [hfall]
  have hSn : 0 < r.block_starts.length := by omega
  have hpy2 : pyGet r.block_starts (-1) =
      some (r.block_starts.getD (r.block_starts.length - 1) 0) := by
    unfold pyGet pyElemIdx
    rw [if_neg (by omega), if_pos (by constructor <;> omega)]
    have hidx : (((r.block_starts.length : Int) + -1).toNat) =
        r.block_starts.length - 1 := by omega
    rw [hidx]
    exact get?_eq_getD r.block_starts (r.block_starts.length - 1) (by omega)
  rw [hpy2]
  rfl

/-- Witness for C10 at `rEx` with walked offset 16 (total block length 15). -/
theorem c10_overwalk_silent_position_witness :
    get_bp_pos_block rEx 16 = (-1, -1) ∧
    block_position_to_genomic_position rEx 16 =
      some (rEx.start + rEx.block_starts.getD (rEx.block_starts.length - 1) 0 - 1) :=
  c10_overwalk_silent_position rEx (by decide) 16 (by decide)

/-! ### Helpers for the trim proofs -/

theorem getD_drop : ∀ (l : List Int) (m i : Nat),
    (l.drop m).getD i 0 = l.getD (m + i) 0 := by
  intro l
  induction l with
  | nil => intro m i; simp
  | cons a t ih =>
    intro m i
    cases m with
    | zero => simp
    | succ k =>
      have := ih k i
      simp [Nat.succ_add, this]

theorem getD_map_sub : ∀ (l : List Int) (c : Int) (i : Nat), i < l.length →
    (l.map (fun x => x - c)).getD i 0 = l.getD i 0 - c := by
  intro l
  induction l with
  | nil => intro c i h; simp at h
  | cons a t ih =>
    intro c i h
    cases i with
    | zero => simp
    | succ k => simpa using ih c k (by simpa using h)

theorem getD_take : ∀ (l : List Int) (i j : Nat), i < j →
    (l.take j).getD i 0 = l.getD i 0 := by
  intro l
  induction l with
  | nil => intro i j _; simp
  | cons a t ih =>
    intro i j hij
    cases j with
    | zero => omega
    | succ m =>
      cases i with
      | zero => simp
      | succ k => simpa using ih k m (by omega)

theorem getD_append_lt : ∀ (l l2 : List Int) (i : Nat), i < l.length →
    (l ++ l2).getD i 0 = l.getD i 0 := by
  intro l
  induction l with
  | nil => intro l2 i h; simp at h
  | cons a t ih =>
    intro l2 i h
    cases i with
    | zero => simp
    | succ k => simpa using ih l2 k (by simpa using h)

theorem getD_concat_self : ∀ (l : List Int) (x : Int),
    (l ++ [x]).getD l.length 0 = x := by
  intro l
  induction l with
  | nil => intro x; simp
  | cons a t ih => intro x; simp [ih x]

theorem take_succ_concat : ∀ (l : List Int) (j : Nat), j < l.length →
    l.take (j + 1) = l.take j ++ [l.getD j 0] := by
  intro l
  induction l with
  | nil => intro j h; simp at h
  | cons a t ih =>
    intro j h
    cases j with
    | zero => simp
    | succ k =>
      have := ih k (by simpa using h)
      simp [List.take_succ_cons, this]

theorem getLast?_take_succ (l : List Int) (j : Nat) (h : j < l.length) :
    (l.take (j + 1)).getLast? = some (l.getD j 0) := by
  rw [take_succ_concat l j h]
  simp

theorem pySliceTo_natCast (l : List Int) (m : Nat) :
    pySliceTo l ((m : Nat) : Int) = l.take m := by
  unfold pySliceTo pyIdx
  rw [if_neg (by omega)]
  have hcast : ((m : Int)).toNat = m := by omega
  rw [hcast]
  rcases le_total m l.length with h | h
  · rw [min_eq_left h]
  · rw [min_eq_right h, List.take_of_length_le h, List.take_of_length_le (by omega)]

theorem pySliceFrom_natCast (l : List Int) (m : Nat) :
    pySliceFrom l ((m : Nat) : Int) = l.drop m := by
  unfold pySliceFrom pyIdx
  rw [if_neg (by omega)]
  have hcast : ((m : Int)).toNat = m := by omega
  rw [hcast]
  rcases le_total m l.length with h | h
  · rw [min_eq_left h]
  · rw [min_eq_right h, List.drop_eq_nil_of_le (by omega),
      List.drop_eq_nil_of_le (by omega)]

/-- Computation of `trim_down_body` on a valid record for an in-range trim:
blocks after the landing block are dropped and the landing block is cut to the
remainder. -/
theorem trim_down_body_spec (r : BedRow) (hv : Valid r) (bp : Int)
    (h1 : 0 < bp) (h2 : bp < r.block_lens.sum) :
    ∃ (j : Nat) (rem : Int),
      j < r.block_lens.length ∧ 1 ≤ rem ∧ rem ≤ r.block_lens.getD j 0 ∧
      trim_down_body r bp = some { r with
        block_starts := r.block_starts.take (j + 1)
        block_lens := r.block_lens.take j ++ [rem]
        block_count := (j : Int) + 1
        stop := r.start + r.block_starts.getD j 0 + rem
        thick_stop := if r.thick_stop > r.start + r.block_starts.getD j 0 + rem
          then r.start + r.block_starts.getD j 0 + rem else r.thick_stop } := by
  obtain ⟨hstrand, hn, hlen, hLpos, hSpos, hchain, _, _, _, _, hstop⟩ := hv
  have hpos1 : 1 ≤ r.block_lens.sum - bp := by omega
  have hpostot : r.block_lens.sum - bp ≤ r.block_lens.sum := by omega
  obtain ⟨j, hj, heq, hub, hlb⟩ := get_bp_go_spec r.block_lens 0 0
    (r.block_lens.sum - bp) hLpos (List.length_pos.mp hn) (by simpa using hpostot)
  set rem : Int := (r.block_lens.sum - bp) - (r.block_lens.take j).sum with hrem
  have hcum1 : (r.block_lens.take (j + 1)).sum =
      (r.block_lens.take j).sum + r.block_lens.getD j 0 := sumTake_succ _ j hj
  have hrem1 : 1 ≤ rem := by
    rcases hlb with h | h
    · subst h
      simp only [List.take_zero, List.sum_nil] at hrem
      omega
    · omega
  have hremle : rem ≤ r.block_lens.getD j 0 := by
    simp only [zero_add] at hub
    omega
  have htot : get_exon_total_length r = r.block_lens.sum := rfl
  have hgb : get_bp_pos_block r (r.block_lens.sum - bp) = ((j : Int), rem) := by
    unfold get_bp_pos_block
    rw [heq]
    simp [hrem]
  have hj1 : (j : Int) + 1 = (((j + 1 : Nat)) : Int) := by push_cast; ring
  have hs1 : pySliceTo r.block_starts ((j : Int) + 1) =
      r.block_starts.take (j + 1) := by
    rw [hj1, pySliceTo_natCast]
  have hl1 : pySliceTo r.block_lens ((j : Int) + 1) =
      r.block_lens.take (j + 1) := by
    rw [hj1, pySliceTo_natCast]
  have hlastL : (r.block_lens.take (j + 1)).getLast? =
      some (r.block_lens.getD j 0) := getLast?_take_succ _ j hj
  have hlastS : (r.block_starts.take (j + 1)).getLast? =
      some (r.block_starts.getD j 0) := getLast?_take_succ _ j (by omega)
  have hlens2 : (if rem ≠ r.block_lens.getD j 0 then
      setLast (r.block_lens.take (j + 1)) rem
      else r.block_lens.take (j + 1)) = r.block_lens.take j ++ [rem] := by
    by_cases h : rem = r.block_lens.getD j 0
    · rw [if_neg (by simp [h])]
      rw [take_succ_concat _ j hj, h]
    · rw [if_pos h]
      unfold setLast
      rw [take_succ_concat _ j hj, List.dropLast_concat]
  have hlast2 : (r.block_lens.take j ++ [rem]).getLast? = some rem := by
    simp
  refine ⟨j, rem, hj, hrem1, hremle, ?_⟩
  unfold trim_down_body
  rw [htot, hgb]
  simp only [hs1, hl1, hlastL, hlens2, hlastS, hlast2]

/-- An in-range `trim_down_body` on a valid record preserves the structural
invariants (and clamps `thick_stop` but never `thick_start`). -/
theorem trim_down_body_inv (r : BedRow) (hv : Valid r) (bp : Int)
    (h1 : 0 < bp) (h2 : bp < r.block_lens.sum) :
    ∃ r', trim_down_body r bp = some r' ∧ StructInv r' := by
  obtain ⟨j, rem, hj, hrem1, hremle, hcomp⟩ := trim_down_body_spec r hv bp h1 h2
  obtain ⟨hstrand, hn, hlen, hLpos, hSpos, hchain, hss, hts1, hts2, hts3, hstop⟩ := hv
  refine ⟨_, hcomp, ?_⟩
  have htkj : (r.block_lens.take j).length = j := by
    rw [List.length_take]; omega
  have hlenL : (r.block_lens.take j ++ [rem]).length = j + 1 := by
    rw [List.length_append, htkj]; rfl
  have hlenS : (r.block_starts.take (j + 1)).length = j + 1 := by
    rw [List.length_take]; omega
  have hgetL : ∀ i, i < j + 1 →
      (r.block_lens.take j ++ [rem]).getD i 0 =
      (if i < j then r.block_lens.getD i 0 else rem) := by
    intro i hi
    by_cases h : i < j
    · rw [if_pos h, getD_append_lt _ _ i (by omega), getD_take _ i j h]
    · have hij : i = j := by omega
      rw [hij, if_neg (by omega)]
      have hc := getD_concat_self (r.block_lens.take j) rem
      rw [htkj] at hc
      exact hc
  have hgetS : ∀ i, i < j + 1 →
      (r.block_starts.take (j + 1)).getD i 0 = r.block_starts.getD i 0 := by
    intro i hi
    exact getD_take _ i (j + 1) hi
  refine ⟨?_, ?_, ?_, ?_, ?_, ?_, ?_, ?_, ?_⟩
  · simp only [hlenL]; omega
  · simp only [hlenL, hlenS]
  · intro i hi
    rw [hlenL] at hi
    rw [hgetL i hi]
    by_cases h : i < j
    · rw [if_pos h]; exact hLpos i (by omega)
    · rw [if_neg h]; omega
  · intro i hi
    rw [hlenL] at hi
    rw [hgetS i hi]
    exact hSpos i (by omega)
  · intro i hi hi1
    rw [hlenL] at hi hi1
    rw [hgetL i hi, hgetS i hi, hgetS (i + 1) hi1, if_pos (by omega)]
    exact hchain i (by omega) (by omega)
  · have := hSpos j hj
    simp only
    omega
  · exact hts1
  · simp only
    split
    · omega
    · omega
  · simp only [hlenL]
    have hsj : (r.block_starts.take (j + 1)).getD (j + 1 - 1) 0 =
        r.block_starts.getD j 0 := by
      have : j + 1 - 1 = j := by omega
      rw [this, hgetS j (by omega)]
    have hlj : (r.block_lens.take j ++ [rem]).getD (j + 1 - 1) 0 = rem := by
      have : j + 1 - 1 = j := by omega
      rw [this, hgetL j (by omega), if_neg (by omega)]
    rw [hsj, hlj]

/-- Offsets are monotone along the block chain. -/
theorem starts_mono (S L : List Int) (hLpos : ∀ m, m < L.length → 0 < L.getD m 0)
    (hchain : ∀ m, m < L.length → m + 1 < L.length →
      S.getD m 0 + L.getD m 0 ≤ S.getD (m + 1) 0) :
    ∀ a b, a ≤ b → b < L.length → S.getD a 0 ≤ S.getD b 0 := by
  intro a b hab hb
  rcases Nat.lt_or_ge a b with h | h
  · have h1 := chain_trans S L hLpos hchain a b h hb
    have h2 := hLpos a (by omega)
    omega
  · have : a = b := by omega
    rw [this]

/-- Abstract pattern behind both outcomes of an in-range upstream trim: the
result keeps a suffix of the blocks starting at index `m`, with the leading
block cut to length `lhead`, all offsets shifted down by `e`, and the genomic
`start` shifted up by `e`.  Any record of this shape satisfies the structural
invariants. -/
theorem structinv_pattern (r r' : BedRow) (hv : Valid r) (m : Nat)
    (e lhead : Int)
    (hm : m < r.block_lens.length)
    (hstart : r'.start = r.start + e)
    (hth1 : r'.start ≤ r'.thick_start)
    (hth2 : r'.thick_stop = r.thick_stop)
    (hstop2 : r'.stop = r.stop)
    (hlenL : r'.block_lens.length = r.block_lens.length - m)
    (hlenS : r'.block_starts.length = r.block_lens.length - m)
    (hL0 : r'.block_lens.getD 0 0 = lhead)
    (hLsucc : ∀ i, i + 1 < r.block_lens.length - m →
      r'.block_lens.getD (i + 1) 0 = r.block_lens.getD (m + 1 + i) 0)
    (hS0 : r'.block_starts.getD 0 0 = 0)
    (hSsucc : ∀ i, i + 1 < r.block_lens.length - m →
      r'.block_starts.getD (i + 1) 0 = r.block_starts.getD (m + 1 + i) 0 - e)
    (hposh : 0 < lhead)
    (hchainhead : m + 1 < r.block_lens.length →
      e + lhead ≤ r.block_starts.getD (m + 1) 0)
    (hlast : m = r.block_lens.length - 1 →
      e + lhead = r.block_starts.getD m 0 + r.block_lens.getD m 0) :
    StructInv r' := by
  obtain ⟨hstrand, hn, hlen, hLpos, hSpos, hchain, hss, hts1, hts2, hts3, hstop⟩ := hv
  have hSmono := starts_mono r.block_starts r.block_lens hLpos hchain
  have hestop : e < r.block_starts.getD (r.block_lens.length - 1) 0 +
      r.block_lens.getD (r.block_lens.length - 1) 0 := by
    rcases Nat.lt_or_ge m (r.block_lens.length - 1) with h | h
    · have h1 := hchainhead (by omega)
      have h2 := hSmono (m + 1) (r.block_lens.length - 1) (by omega) (by omega)
      have h3 := hLpos (r.block_lens.length - 1) (by omega)
      omega
    · have hme : m = r.block_lens.length - 1 := by omega
      have := hlast hme
      rw [hme] at this
      omega
  refine ⟨?_, ?_, ?_, ?_, ?_, ?_, ?_, ?_, ?_⟩
  · omega
  · omega
  · intro i hi
    cases i with
    | zero => rw [hL0]; exact hposh
    | succ k =>
      rw [hLsucc k (by omega)]
      exact hLpos (m + 1 + k) (by omega)
  · intro i hi
    cases i with
    | zero => rw [hS0]
    | succ k =>
      rw [hSsucc k (by omega)]
      have h1 := hchainhead (by omega)
      have h2 := hSmono (m + 1) (m + 1 + k) (by omega) (by omega)
      omega
  · intro i hi hi1
    cases i with
    | zero =>
      rw [hL0, hS0, hSsucc 0 (by omega)]
      have h1 := hchainhead (by omega)
      simp only [Nat.add_zero]
      omega
    | succ k =>
      rw [hLsucc k (by omega), hSsucc k (by omega), hSsucc (k + 1) (by omega)]
      have h1 := hchain (m + 1 + k) (by omega) (by omega)
      have harith : m + 1 + (k + 1) = m + 1 + k + 1 := by omega
      rw [harith]
      omega
  · rw [hstart, hstop2, hstop]
    omega
  · exact hth1
  · rw [hth2, hstop2]
    omega
  · rw [hstop2, hstop, hstart, hlenL]
    rcases Nat.lt_or_ge m (r.block_lens.length - 1) with h | h
    · have hidx : r.block_lens.length - m - 1 = (r.block_lens.length - m - 2) + 1 := by
        omega
      rw [hidx, hLsucc _ (by omega), hSsucc _ (by omega)]
      have harith : m + 1 + (r.block_lens.length - m - 2) =
          r.block_lens.length - 1 := by omega
      rw [harith]
      ring
    · have hme : m = r.block_lens.length - 1 := by omega
      have hidx : r.block_lens.length - m - 1 = 0 := by omega
      rw [hidx, hL0, hS0]
      have := hlast hme
      rw [hme] at this
      omega

/-- An in-range `trim_up_body` on a valid record succeeds and preserves the
structural invariants, in both the plain and the zero-block-smoothing case. -/
theorem trim_up_body_inv (r : BedRow) (hv : Valid r) (bp : Int)
    (h1 : 0 < bp) (h2 : bp < r.block_lens.sum) :
    ∃ r', trim_up_body r bp = some r' ∧ StructInv r' := by
  have hv2 := hv
  obtain ⟨hstrand, hn, hlen, hLpos, hSpos, hchain, hss, hts1, hts2, hts3, hstop⟩ := hv2
  obtain ⟨j, hj, heq, hub, hlb⟩ := get_bp_go_spec r.block_lens 0 0 bp hLpos
    (List.length_pos.mp hn) (by omega)
  set rem : Int := bp - (r.block_lens.take j).sum with hrem
  have hcum1 : (r.block_lens.take (j + 1)).sum =
      (r.block_lens.take j).sum + r.block_lens.getD j 0 := sumTake_succ _ j hj
  have hrem1 : 1 ≤ rem := by
    rcases hlb with h | h
    · subst h
      simp only [List.take_zero, List.sum_nil] at hrem
      omega
    · omega
  have hremle : rem ≤ r.block_lens.getD j 0 := by
    simp only [zero_add] at hub
    omega
  have hgb : get_bp_pos_block r bp = ((j : Int), rem) := by
    unfold get_bp_pos_block
    rw [heq]
    simp [hrem]
  have hdropL := drop_eq_getD_cons r.block_lens j hj
  have hdropS := drop_eq_getD_cons r.block_starts j (by omega)
  by_cases hsm : r.block_lens.getD j 0 - rem = 0
  · -- smoothing case: the leading block is trimmed to length 0 and removed
    have hj1 : j + 1 < r.block_lens.length := by
      by_contra hc
      have hjeq : j + 1 = r.block_lens.length := by omega
      have : (r.block_lens.take (j + 1)).sum = r.block_lens.sum := by
        rw [hjeq, List.take_length]
      simp only [zero_add] at hub
      omega
    have hdropS1 := drop_eq_getD_cons r.block_starts (j + 1) (by omega)
    have hcomp : trim_up_body r bp = some
        { start := r.start + (r.block_starts.getD j 0 + rem) +
            (r.block_starts.getD (j + 1) 0 - (r.block_starts.getD j 0 + rem)),
          stop := r.stop,
          thick_start :=
            if (if r.thick_start < r.start + (r.block_starts.getD j 0 + rem) then
                r.start + (r.block_starts.getD j 0 + rem)
              else r.thick_start) <
                r.start + (r.block_starts.getD j 0 + rem) +
                  (r.block_starts.getD (j + 1) 0 - (r.block_starts.getD j 0 + rem)) then
              r.start + (r.block_starts.getD j 0 + rem) +
                (r.block_starts.getD (j + 1) 0 - (r.block_starts.getD j 0 + rem))
            else
              if r.thick_start < r.start + (r.block_starts.getD j 0 + rem) then
                r.start + (r.block_starts.getD j 0 + rem)
              else r.thick_start,
          thick_stop := r.thick_stop, strand := r.strand,
          block_lens := List.drop (j + 1) r.block_lens,
          block_starts :=
            (r.block_starts.getD (j + 1) 0 - (r.block_starts.getD j 0 + rem) -
                (r.block_starts.getD (j + 1) 0 - (r.block_starts.getD j 0 + rem))) ::
              List.map (fun b => b -
                  (r.block_starts.getD (j + 1) 0 - (r.block_starts.getD j 0 + rem)))
                (List.map (fun x => x - (r.block_starts.getD j 0 + rem))
                  (List.drop (j + 1 + 1) r.block_starts)),
          block_count := r.block_count - (j : Int) } := by
      unfold trim_up_body smooth_zero_leading_block
      rw [hgb]
      simp only [pySliceFrom_natCast, hdropL, hdropS, List.head?_cons,
        List.tail_cons, List.map_cons, List.drop_succ_cons, List.drop_zero]
      rw [if_pos hsm]
      simp only [hdropS1, List.map_cons, List.head?_cons]
    refine ⟨_, hcomp, ?_⟩
    refine structinv_pattern r _ hv (j + 1) (r.block_starts.getD (j + 1) 0)
      (r.block_lens.getD (j + 1) 0) hj1 ?_ ?_ rfl rfl ?_ ?_ ?_ ?_ ?_ ?_ ?_ ?_ ?_
    · show r.start + (r.block_starts.getD j 0 + rem) +
        (r.block_starts.getD (j + 1) 0 - (r.block_starts.getD j 0 + rem)) =
        r.start + r.block_starts.getD (j + 1) 0
      ring
    · dsimp only
      split
      · omega
      · split <;> omega
    · show (r.block_lens.drop (j + 1)).length = r.block_lens.length - (j + 1)
      rw [List.length_drop]
    · show (_ :: List.map _ (List.map _ (List.drop (j + 1 + 1) r.block_starts))).length =
        r.block_lens.length - (j + 1)
      simp only [List.length_cons, List.length_map, List.length_drop]
      omega
    · show (r.block_lens.drop (j + 1)).getD 0 0 = r.block_lens.getD (j + 1) 0
      rw [getD_drop]
    · intro i hi
      show (r.block_lens.drop (j + 1)).getD (i + 1) 0 =
        r.block_lens.getD (j + 1 + 1 + i) 0
      rw [getD_drop]
      congr 1
      omega
    · show r.block_starts.getD (j + 1) 0 - (r.block_starts.getD j 0 + rem) -
        (r.block_starts.getD (j + 1) 0 - (r.block_starts.getD j 0 + rem)) = 0
      ring
    · intro i hi
      show (List.map (fun b => b -
          (r.block_starts.getD (j + 1) 0 - (r.block_starts.getD j 0 + rem)))
          (List.map (fun x => x - (r.block_starts.getD j 0 + rem))
            (List.drop (j + 1 + 1) r.block_starts))).getD i 0 =
        r.block_starts.getD (j + 1 + 1 + i) 0 - r.block_starts.getD (j + 1) 0
      have hilen : i < (List.map (fun x => x - (r.block_starts.getD j 0 + rem))
          (List.drop (j + 1 + 1) r.block_starts)).length := by
        simp only [List.length_map, List.length_drop]
        omega
      rw [getD_map_sub _ _ i hilen]
      have hilen2 : i < (List.drop (j + 1 + 1) r.block_starts).length := by
        simp only [List.length_drop]
        omega
      rw [getD_map_sub _ _ i hilen2, getD_drop]
      ring
    · exact hLpos (j + 1) hj1
    · intro h
      exact hchain (j + 1) hj1 h
    · intro h
      rfl
  · -- plain case: the landing block is only shortened
    have hcomp : trim_up_body r bp = some
        { start := r.start + (r.block_starts.getD j 0 + rem),
          stop := r.stop,
          thick_start :=
            if r.thick_start < r.start + (r.block_starts.getD j 0 + rem) then
              r.start + (r.block_starts.getD j 0 + rem)
            else r.thick_start,
          thick_stop := r.thick_stop, strand := r.strand,
          block_lens := (r.block_lens.getD j 0 - rem) :: List.drop (j + 1) r.block_lens,
          block_starts :=
            (r.block_starts.getD j 0 + rem - (r.block_starts.getD j 0 + rem)) ::
              List.map (fun x => x - (r.block_starts.getD j 0 + rem))
                (List.drop (j + 1) r.block_starts),
          block_count := r.block_count - (j : Int) } := by
      unfold trim_up_body
      rw [hgb]
      simp only [pySliceFrom_natCast, hdropL, hdropS, List.head?_cons,
        List.tail_cons, List.map_cons, List.drop_succ_cons, List.drop_zero]
      rw [if_neg hsm]
    refine ⟨_, hcomp, ?_⟩
    refine structinv_pattern r _ hv j (r.block_starts.getD j 0 + rem)
      (r.block_lens.getD j 0 - rem) hj rfl ?_ rfl rfl ?_ ?_ rfl ?_ ?_ ?_ ?_ ?_ ?_
    · dsimp only
      split <;> omega
    · show ((r.block_lens.getD j 0 - rem) :: r.block_lens.drop (j + 1)).length =
        r.block_lens.length - j
      simp only [List.length_cons, List.length_drop]
      omega
    · show ((r.block_starts.getD j 0 + rem - (r.block_starts.getD j 0 + rem)) ::
        List.map _ (List.drop (j + 1) r.block_starts)).length =
        r.block_lens.length - j
      simp only [List.length_cons, List.length_map, List.length_drop]
      omega
    · intro i hi
      show (r.block_lens.drop (j + 1)).getD i 0 = r.block_lens.getD (j + 1 + i) 0
      rw [getD_drop]
    · show r.block_starts.getD j 0 + rem - (r.block_starts.getD j 0 + rem) = 0
      ring
    · intro i hi
      show (List.map (fun x => x - (r.block_starts.getD j 0 + rem))
          (List.drop (j + 1) r.block_starts)).getD i 0 =
        r.block_starts.getD (j + 1 + i) 0 - (r.block_starts.getD j 0 + rem)
      have hilen : i < (List.drop (j + 1) r.block_starts).length := by
        simp only [List.length_drop]
        omega
      rw [getD_map_sub _ _ i hilen, getD_drop]
    · omega
    · intro h
      have := hchain j hj h
      omega
    · intro h
      omega

/-- `Valid` implies the structural part of the invariants. -/
theorem structinv_of_valid (r : BedRow) (hv : Valid r) : StructInv r := by
  obtain ⟨_, hn, hlen, hLpos, hSpos, hchain, hss, hts1, hts2, hts3, hstop⟩ := hv
  exact ⟨hn, hlen, hLpos, hSpos, hchain, hss, hts1, hts3, hstop⟩

/--
C2 (amended): after every successful in-range trim (`bp` strictly below the
total block length; a trim by `bp ≤ 0` is a no-op) on a valid record, the
record satisfies `start < stop`, positive block lengths, strictly increasing
non-overlapping block offsets, `stop = start + last_offset + last_length`,
`start ≤ thick_start` and `thick_stop ≤ stop`.  The full chain
`thick_start ≤ thick_stop` is NOT preserved: each trim clamps only the thick
bound on its own side (see the counterexample).
-/
theorem c2_trim_invariants (r : BedRow) (bp : Int) (r' : BedRow)
    (hv : Valid r) (hbp : bp < r.block_lens.sum)
    (h : trim_bp_downstream r bp = some r' ∨ trim_bp_upstream r bp = some r') :
    StructInv r' := by
  by_cases h0 : bp ≤ 0
  · unfold trim_bp_downstream trim_bp_upstream at h
    simp only [if_pos h0, Option.some.injEq] at h
    rcases h with h | h <;>
    · rw [← h]
      exact structinv_of_valid r hv
  · have h1 : 0 < bp := by omega
    unfold trim_bp_downstream trim_bp_upstream at h
    simp only [if_neg h0] at h
    by_cases hstr : r.strand = "-"
    · simp only [if_pos hstr] at h
      rcases h with h | h
      · obtain ⟨r2, hcomp, hinv⟩ := trim_up_body_inv r hv bp h1 hbp
        rw [hcomp, Option.some.injEq] at h
        rw [← h]
        exact hinv
      · obtain ⟨r2, hcomp, hinv⟩ := trim_down_body_inv r hv bp h1 hbp
        rw [hcomp, Option.some.injEq] at h
        rw [← h]
        exact hinv
    · simp only [if_neg hstr] at h
      rcases h with h | h
      · obtain ⟨r2, hcomp, hinv⟩ := trim_down_body_inv r hv bp h1 hbp
        rw [hcomp, Option.some.injEq] at h
        rw [← h]
        exact hinv
      · obtain ⟨r2, hcomp, hinv⟩ := trim_up_body_inv r hv bp h1 hbp
        rw [hcomp, Option.some.injEq] at h
        rw [← h]
        exact hinv

/-- Witness for C2 at `rEx`, trimming 4 bp downstream. -/
theorem c2_trim_invariants_witness :
    StructInv ({ start := 10, stop := 36, thick_start := 15,
                 thick_stop := 35, strand := "+", block_lens := [10, 1],
                 block_starts := [0, 25], block_count := 2 } : BedRow) :=
  c2_trim_invariants rEx 4 _ (by decide) (by decide) (Or.inl (by decide))

/-- Counterexample for C2 as stated: trimming the valid record `rThick`
(thick region `[8, 10]`) downstream by 5 bp succeeds but leaves
`thick_start = 8 > thick_stop = 5` — the code clamps `thick_stop` to the new
`stop` but never clamps `thick_start` down. -/
theorem c2_thick_chain_counterexample :
    Valid rThick ∧
    Option.map BedRow.thick_start (trim_bp_downstream rThick 5) = some 8 ∧
    Option.map BedRow.thick_stop (trim_bp_downstream rThick 5) = some 5 := by
  decide

/--
C3 (code bug): trimming beyond the total available block length does NOT fail
with any error: `get_bp_pos_block` on the negative walk position returns block
0 with a negative remainder, and the
downstream trim silently returns a record with a single negative-length block
and `stop < start` (here: total length 15, trim 16, resulting block length
`-1`, `stop = 9 < start = 10`); the upstream trim likewise returns a silently
corrupted record instead of raising.
-/
theorem c3_overtrim_no_error :
    get_bp_pos_block rEx (get_exon_total_length rEx - 16) = (0, -1) ∧
    Option.map BedRow.block_lens (trim_bp_downstream rEx 16) = some [-1] ∧
    Option.map BedRow.stop (trim_bp_downstream rEx 16) = some 9 ∧
    (trim_bp_upstream rEx 16).isSome = true := by
  decide

/--
C5: on a valid multi-block `+`-strand record, trimming upstream by exactly the
length of the first block removes that block entirely (the remaining block
lengths are exactly the tail), leaves the new first block offset at 0 (no
residual positive offset), and leaves no leading zero-length block (every
remaining block length is positive, so the smoothing needs no further
repetition).
-/
theorem c5_zero_block_smoothing (r : BedRow) (hv : Valid r)
    (hstr : r.strand = "+") (l0 : Int) (rest : List Int)
    (hL : r.block_lens = l0 :: rest) (hrest : rest ≠ []) :
    ∃ r', trim_bp_upstream r l0 = some r' ∧
      r'.block_lens = rest ∧
      r'.block_starts.getD 0 0 = 0 ∧
      (∀ i, i < r'.block_lens.length → 0 < r'.block_lens.getD i 0) := by
  have hv2 := hv
  obtain ⟨hstrand, hn, hlen, hLpos, hSpos, hchain, hss, hts1, hts2, hts3, hstop⟩ := hv2
  have hLlen : r.block_lens.length = rest.length + 1 := by
    rw [hL]
    rfl
  rcases hSeq : r.block_starts with _ | ⟨s0, stl⟩
  · exfalso
    rw [hSeq] at hlen
    simp only [List.length_nil] at hlen
    omega
  rcases hstleq : stl with _ | ⟨s1, srest⟩
  · exfalso
    rw [hSeq, hstleq] at hlen
    simp only [List.length_cons, List.length_nil] at hlen
    have : rest.length = 0 := by omega
    exact hrest (List.eq_nil_of_length_eq_zero this)
  have hS : r.block_starts = s0 :: s1 :: srest := by
    rw [hSeq, hstleq]
  have hl0 : 0 < l0 := by
    have := hLpos 0 (by omega)
    rw [hL] at this
    simpa using this
  have hgb : get_bp_pos_block r l0 = ((0 : Int), l0) := by
    unfold get_bp_pos_block
    rw [hL]
    unfold get_bp_pos_block_go
    rw [if_neg (by omega)]
    norm_num
  have hsf0 : ∀ l : List Int, pySliceFrom l 0 = l := by
    intro l
    unfold pySliceFrom pyIdx
    rw [if_neg (by omega)]
    simp
  have hcomp : trim_bp_upstream r l0 = some
      { start := r.start + (s0 + l0) + (s1 - (s0 + l0)),
        stop := r.stop,
        thick_start :=
          if (if r.thick_start < r.start + (s0 + l0) then r.start + (s0 + l0)
              else r.thick_start) <
              r.start + (s0 + l0) + (s1 - (s0 + l0)) then
            r.start + (s0 + l0) + (s1 - (s0 + l0))
          else if r.thick_start < r.start + (s0 + l0) then r.start + (s0 + l0)
            else r.thick_start,
        thick_stop := r.thick_stop, strand := r.strand,
        block_lens := rest,
        block_starts :=
          (s1 - (s0 + l0) - (s1 - (s0 + l0))) ::
            List.map (fun b => b - (s1 - (s0 + l0)))
              (List.map (fun x => x - (s0 + l0)) srest),
        block_count := r.block_count - 0 } := by
    unfold trim_bp_upstream
    rw [if_neg (by omega), if_neg (by rw [hstr]; decide)]
    unfold trim_up_body smooth_zero_leading_block
    rw [hgb]
    simp only [hL, hS, hsf0, List.head?_cons, List.tail_cons,
      List.map_cons, List.drop_succ_cons, List.drop_zero]
    rw [if_pos (by ring : l0 - l0 = 0)]
  refine ⟨_, hcomp, rfl, ?_, ?_⟩
  · show s1 - (s0 + l0) - (s1 - (s0 + l0)) = 0
    ring
  · intro i hi
    have hi2 : i < rest.length := hi
    show rest.getD i 0 > 0
    have := hLpos (i + 1) (by omega)
    rw [hL] at this
    simpa using this

/-- Witness for C5: trimming `rEx` upstream by its first block length (10)
removes the first block, leaving blocks `[5]` with first offset 0. -/
theorem c5_zero_block_smoothing_witness :
    ∃ r', trim_bp_upstream rEx 10 = some r' ∧
      r'.block_lens = [5] ∧
      r'.block_starts.getD 0 0 = 0 ∧
      (∀ i, i < r'.block_lens.length → 0 < r'.block_lens.getD i 0) :=
  c5_zero_block_smoothing rEx (by decide) (by decide) 10 [5] (by decide)
    (by decide)

/-! ### Claim C6: the `+`-strand CIGAR rewrite -/

theorem get?_append_len {α : Type} : ∀ (l1 l2 : List α) (i : Nat),
    (l1 ++ l2).get? (l1.length + i) = l2.get? i := by
  intro l1
  induction l1 with
  | nil => intro l2 i; simp
  | cons a t ih =>
    intro l2 i
    have := ih l2 i
    simpa [Nat.succ_add] using this

theorem set_append_len {α : Type} : ∀ (l1 l2 : List α) (i : Nat) (v : α),
    (l1 ++ l2).set (l1.length + i) v = l1 ++ l2.set i v := by
  intro l1
  induction l1 with
  | nil => intro l2 i v; simp
  | cons a t ih =>
    intro l2 i v
    have := ih l2 i v
    simp only [List.cons_append, List.length_cons, Nat.succ_add, List.set]
    rw [this]

theorem take_append_len {α : Type} : ∀ (l1 l2 : List α) (i : Nat),
    (l1 ++ l2).take (l1.length + i) = l1 ++ l2.take i := by
  intro l1
  induction l1 with
  | nil => intro l2 i; simp
  | cons a t ih =>
    intro l2 i
    have := ih l2 i
    simp only [List.cons_append, List.length_cons, Nat.succ_add, List.take_succ_cons]
    rw [this]

theorem drop_append_len {α : Type} : ∀ (l1 l2 : List α) (i : Nat),
    (l1 ++ l2).drop (l1.length + i) = l2.drop i := by
  intro l1
  induction l1 with
  | nil => intro l2 i; simp
  | cons a t ih =>
    intro l2 i
    have := ih l2 i
    simp [Nat.succ_add, this]

/--
C6: on a `+`-strand hit with wiggle offset `wiggle`, clip length `clipLen` and
exon gap `dist`, the CIGAR rewrite shrinks the operation preceding the
trailing soft-clip by `wiggle`, inserts an intron-skip `N` operation of length
`dist + wiggle`, inserts a match `=` operation of length `clipLen`, and
shrinks the trailing soft-clip by `clipLen - wiggle`.
-/
theorem c6_plus_strand_cigar_rewrite (pre : List CigarFeature)
    (a s : CigarFeature) (wiggle dist clipLen : Int) :
    plusStrandCigarRewrite (pre ++ [a, s]) wiggle dist clipLen =
      some (pre ++ [⟨a.symbol, a.size - wiggle⟩, ⟨"N", dist + wiggle⟩,
        ⟨"=", clipLen⟩, ⟨s.symbol, s.size - clipLen + wiggle⟩]) := by
  have hlen1 : (pre ++ [a, s]).length = pre.length + 2 := by
    simp
  have hidx1 : pyElemIdx (pre ++ [a, s]).length (-2) = some pre.length := by
    unfold pyElemIdx
    rw [hlen1, if_neg (by omega), if_pos (by constructor <;> omega)]
    congr 1
    omega
  have hget1 : (pre ++ [a, s]).get? pre.length = some a := by
    have := get?_append_len pre [a, s] 0
    simpa using this
  have hset1 : (pre ++ [a, s]).set pre.length ⟨a.symbol, a.size - wiggle⟩ =
      pre ++ [⟨a.symbol, a.size - wiggle⟩, s] := by
    have := set_append_len pre [a, s] 0 (⟨a.symbol, a.size - wiggle⟩ : CigarFeature)
    simp only [Nat.add_zero] at this
    rw [this]
    rfl
  have hstep1 : pyModifySize (pre ++ [a, s]) (-2) (fun q => q - wiggle) =
      some (pre ++ [⟨a.symbol, a.size - wiggle⟩, s]) := by
    unfold pyModifySize
    simp only [hidx1, hget1, Option.some.injEq]
    exact hset1
  have hlen2 : (pre ++ [⟨a.symbol, a.size - wiggle⟩, s]).length = pre.length + 2 := by
    simp
  have hstep2 : pyInsert (pre ++ [⟨a.symbol, a.size - wiggle⟩, s]) (-1)
      ⟨"N", dist + wiggle⟩ =
      pre ++ [⟨a.symbol, a.size - wiggle⟩, ⟨"N", dist + wiggle⟩, s] := by
    unfold pyInsert
    rw [hlen2, if_pos (by omega)]
    have hk : (((pre.length + 2 : Nat) : Int) + -1).toNat = pre.length + 1 := by
      omega
    rw [hk]
    have ht := take_append_len pre [⟨a.symbol, a.size - wiggle⟩, s] 1
    have hd := drop_append_len pre [⟨a.symbol, a.size - wiggle⟩, s] 1
    simp only [ht, hd]
    simp
  have hlen3 : (pre ++ [⟨a.symbol, a.size - wiggle⟩, ⟨"N", dist + wiggle⟩,
      s]).length = pre.length + 3 := by
    simp
  have hstep3 : pyInsert (pre ++ [⟨a.symbol, a.size - wiggle⟩,
      ⟨"N", dist + wiggle⟩, s]) (-1) ⟨"=", clipLen⟩ =
      pre ++ [⟨a.symbol, a.size - wiggle⟩, ⟨"N", dist + wiggle⟩,
        ⟨"=", clipLen⟩, s] := by
    unfold pyInsert
    rw [hlen3, if_pos (by omega)]
    have hk : (((pre.length + 3 : Nat) : Int) + -1).toNat = pre.length + 2 := by
      omega
    rw [hk]
    have ht := take_append_len pre
      [⟨a.symbol, a.size - wiggle⟩, ⟨"N", dist + wiggle⟩, s] 2
    have hd := drop_append_len pre
      [⟨a.symbol, a.size - wiggle⟩, ⟨"N", dist + wiggle⟩, s] 2
    simp only [ht, hd]
    simp
  have hlen4 : (pre ++ [⟨a.symbol, a.size - wiggle⟩, ⟨"N", dist + wiggle⟩,
      ⟨"=", clipLen⟩, s]).length = pre.length + 4 := by
    simp
  have hidx4 : pyElemIdx (pre ++ [⟨a.symbol, a.size - wiggle⟩,
      ⟨"N", dist + wiggle⟩, ⟨"=", clipLen⟩, s]).length (-1) =
      some (pre.length + 3) := by
    unfold pyElemIdx
    rw [hlen4, if_neg (by omega), if_pos (by constructor <;> omega)]
    congr 1
    omega
  have hget4 : (pre ++ [⟨a.symbol, a.size - wiggle⟩, ⟨"N", dist + wiggle⟩,
      ⟨"=", clipLen⟩, s]).get? (pre.length + 3) = some s := by
    have := get?_append_len pre
      [⟨a.symbol, a.size - wiggle⟩, ⟨"N", dist + wiggle⟩, ⟨"=", clipLen⟩, s] 3
    simpa using this
  have hset4 : (pre ++ [⟨a.symbol, a.size - wiggle⟩, ⟨"N", dist + wiggle⟩,
      ⟨"=", clipLen⟩, s]).set (pre.length + 3)
      ⟨s.symbol, s.size - clipLen + wiggle⟩ =
      pre ++ [⟨a.symbol, a.size - wiggle⟩, ⟨"N", dist + wiggle⟩,
        ⟨"=", clipLen⟩, ⟨s.symbol, s.size - clipLen + wiggle⟩] := by
    have := set_append_len pre
      [⟨a.symbol, a.size - wiggle⟩, ⟨"N", dist + wiggle⟩, ⟨"=", clipLen⟩, s] 3
      (⟨s.symbol, s.size - clipLen + wiggle⟩ : CigarFeature)
    rw [this]
    rfl
  unfold plusStrandCigarRewrite
  rw [hstep1]
  simp only [hstep2, hstep3]
  unfold pyModifySize
  simp only [hidx4, hget4, Option.some.injEq]
  exact hset4

/-! ### Claim C7: de-duplication and secondary-alignment flagging -/

/-- Loop invariant of the output loop: `tracked_cigars` holds, for each read,
exactly the list of corrected CIGAR strings emitted so far for that read. -/
def DedupInv (st : DedupState) : Prop :=
  ∀ sid, List.lookup sid st.tracked =
    (if emittedFor st.emitted sid = [] then none
     else some (emittedFor st.emitted sid))

theorem lookup_dictSet_self (d : List (String × List String)) (k : String)
    (v : List String) : List.lookup k (dictSet d k v) = some v := by
  induction d with
  | nil => simp [dictSet, List.lookup]
  | cons p rest ih =>
    unfold dictSet
    by_cases h : p.1 = k
    · rw [if_pos h]
      simp [List.lookup]
    · rw [if_neg h]
      simp only [List.lookup]
      have hne : (k == p.1) = false := by
        rw [beq_eq_false_iff_ne]
        intro hc
        exact h hc.symm
      rw [hne]
      exact ih

theorem lookup_dictSet_other (d : List (String × List String)) (k sid : String)
    (v : List String) (hne : sid ≠ k) :
    List.lookup sid (dictSet d k v) = List.lookup sid d := by
  induction d with
  | nil =>
    simp only [dictSet, List.lookup]
    rw [beq_eq_false_iff_ne.mpr hne]
  | cons p rest ih =>
    unfold dictSet
    by_cases h : p.1 = k
    · rw [if_pos h]
      simp only [List.lookup]
      rw [beq_eq_false_iff_ne.mpr hne, beq_eq_false_iff_ne.mpr (h ▸ hne)]
    · rw [if_neg h]
      simp only [List.lookup]
      rw [ih]

theorem emittedFor_append (em : List EmitRow) (row : EmitRow) (sid : String) :
    emittedFor (em ++ [row]) sid =
      emittedFor em sid ++ (if row.sid = sid then [row.cigar] else []) := by
  unfold emittedFor
  rw [List.filter_append]
  by_cases h : row.sid = sid
  · rw [if_pos h]
    simp [h]
  · rw [if_neg h]
    simp [beq_eq_false_iff_ne.mpr h]

theorem dedupStep_inv (st : DedupState) (c : Cand) (hinv : DedupInv st) :
    DedupInv (dedupStep st c) := by
  intro sid
  unfold dedupStep
  rcases hlook : List.lookup c.sid st.tracked with _ | old
  · simp only
    have hemc : emittedFor st.emitted c.sid = [] := by
      have := hinv c.sid
      rw [hlook] at this
      by_contra hc
      rw [if_neg hc] at this
      exact Option.noConfusion this
    by_cases hsid : sid = c.sid
    · subst hsid
      rw [lookup_dictSet_self, emittedFor_append, hemc]
      simp
    · have hemsid : emittedFor (st.emitted ++ [⟨c.sid, c.flag, c.cigar⟩]) sid =
          emittedFor st.emitted sid := by
        rw [emittedFor_append]
        dsimp only
        rw [if_neg (fun hc => hsid hc.symm), List.append_nil]
      rw [lookup_dictSet_other _ _ _ _ hsid, hemsid]
      exact hinv sid
  · have hemc : emittedFor st.emitted c.sid = old := by
      have := hinv c.sid
      rw [hlook] at this
      by_cases hc : emittedFor st.emitted c.sid = []
      · rw [if_pos hc] at this
        exact Option.noConfusion this
      · rw [if_neg hc] at this
        exact (Option.some.injEq _ _ ▸ this).symm
    by_cases hmem : c.cigar ∈ old
    · simp only [if_pos hmem]
      exact hinv sid
    · simp only [if_neg hmem]
      by_cases hsid : sid = c.sid
      · subst hsid
        rw [lookup_dictSet_self, emittedFor_append, hemc]
        dsimp only
        rw [if_pos rfl]
        have hne2 : old ++ [c.cigar] ≠ [] := by
          simp
        rw [if_neg hne2]
      · have hemsid : emittedFor (st.emitted ++
            [⟨c.sid, (if c.strandVar = "-" then 16 else 0) + 256, c.cigar⟩]) sid =
            emittedFor st.emitted sid := by
          rw [emittedFor_append]
          dsimp only
          rw [if_neg (fun hc => hsid hc.symm), List.append_nil]
        rw [lookup_dictSet_other _ _ _ _ hsid, hemsid]
        exact hinv sid

theorem foldl_dedup_inv : ∀ (cands : List Cand) (st : DedupState),
    DedupInv st → DedupInv (cands.foldl dedupStep st) := by
  intro cands
  induction cands with
  | nil => intro st h; exact h
  | cons c rest ih =>
    intro st h
    exact ih (dedupStep st c) (dedupStep_inv st c h)

theorem runDedup_inv (cands : List Cand) : DedupInv (runDedup cands) := by
  unfold runDedup
  refine foldl_dedup_inv cands _ ?_
  intro sid
  simp [emittedFor, List.lookup]

/--
C7: in the output loop, when a candidate's read has no previously-emitted
corrected CIGAR, it is emitted with the read's original SAM flag (primary);
a candidate whose corrected CIGAR equals an already-emitted one for that read
is discarded and not emitted; and a candidate with a new, distinct corrected
CIGAR for an already-corrected read is emitted with a flag whose
secondary-alignment bit 0x100 (bit 8) is set.
-/
theorem c7_dedup_secondary_flagging (cands : List Cand) (c : Cand) :
    (emittedFor (runDedup cands).emitted c.sid = [] →
      (runDedup (cands ++ [c])).emitted =
        (runDedup cands).emitted ++ [⟨c.sid, c.flag, c.cigar⟩]) ∧
    (c.cigar ∈ emittedFor (runDedup cands).emitted c.sid →
      (runDedup (cands ++ [c])).emitted = (runDedup cands).emitted ∧
      (runDedup (cands ++ [c])).discarded =
        (runDedup cands).discarded ++ [⟨c.sid, c.flag, c.cigar⟩]) ∧
    (emittedFor (runDedup cands).emitted c.sid ≠ [] →
      c.cigar ∉ emittedFor (runDedup cands).emitted c.sid →
      (runDedup (cands ++ [c])).emitted = (runDedup cands).emitted ++
        [⟨c.sid, (if c.strandVar = "-" then 16 else 0) + 256, c.cigar⟩] ∧
      Nat.testBit ((if c.strandVar = "-" then 16 else 0) + 256) 8 = true) := by
  have hrun : runDedup (cands ++ [c]) = dedupStep (runDedup cands) c := by
    unfold runDedup
    rw [List.foldl_append]
    rfl
  have hinv := runDedup_inv cands
  refine ⟨?_, ?_, ?_⟩
  · intro hnone
    have hlook : List.lookup c.sid (runDedup cands).tracked = none := by
      rw [hinv c.sid, if_pos hnone]
    rw [hrun]
    unfold dedupStep
    rw [hlook]
  · intro hmem
    have hne : emittedFor (runDedup cands).emitted c.sid ≠ [] := by
      intro hc
      rw [hc] at hmem
      exact List.not_mem_nil _ hmem
    have hlook : List.lookup c.sid (runDedup cands).tracked =
        some (emittedFor (runDedup cands).emitted c.sid) := by
      rw [hinv c.sid, if_neg hne]
    rw [hrun]
    unfold dedupStep
    rw [hlook]
    simp only [if_pos hmem]
    exact ⟨trivial, trivial⟩
  · intro hne hmem
    have hlook : List.lookup c.sid (runDedup cands).tracked =
        some (emittedFor (runDedup cands).emitted c.sid) := by
      rw [hinv c.sid, if_neg hne]
    rw [hrun]
    unfold dedupStep
    rw [hlook]
    simp only [if_neg hmem]
    refine ⟨trivial, ?_⟩
    by_cases hs : c.strandVar = "-"
    · rw [if_pos hs]
      decide
    · rw [if_neg hs]
      decide

/-- Witness for C7: read `r1` already has `10M` emitted; a second distinct
corrected CIGAR `12M` is emitted with the 0x100 bit set (flag 272 here, since
the stale strand variable is `-`). -/
theorem c7_dedup_secondary_flagging_witness :
    (runDedup ([⟨"r1", "10M", 0, "+"⟩] ++ [⟨"r1", "12M", 0, "-"⟩])).emitted =
      (runDedup [⟨"r1", "10M", 0, "+"⟩]).emitted ++
        [⟨"r1", (if ("-" : String) = "-" then 16 else 0) + 256, "12M"⟩] ∧
    Nat.testBit ((if ("-" : String) = "-" then 16 else 0) + 256) 8 = true :=
  (c7_dedup_secondary_flagging [⟨"r1", "10M", 0, "+"⟩]
    ⟨"r1", "12M", 0, "-"⟩).2.2 (by decide) (by decide)

/-! ### Claim C8: CIGAR parse / serialize round trip -/

theorem digitChar_facts : ∀ d, d < 10 →
    ((Char.ofNat (48 + d)).toNat : Int) - 48 = (d : Int) ∧
    (Char.ofNat (48 + d)).isDigit = true := by
  decide

theorem digitsToInt_append (l : List Char) (c : Char) :
    digitsToInt (l ++ [c]) = digitsToInt l * 10 + ((c.toNat : Int) - 48) := by
  unfold digitsToInt
  rw [List.foldl_append]
  rfl

theorem natDigitsGo_spec : ∀ (fuel n : Nat), n < fuel →
    natDigitsGo fuel n ≠ [] ∧
    (∀ c ∈ natDigitsGo fuel n, c.isDigit = true) ∧
    digitsToInt (natDigitsGo fuel n) = (n : Int) := by
  intro fuel
  induction fuel with
  | zero => intro n h; omega
  | succ fuel ih =>
    intro n h
    unfold natDigitsGo
    by_cases h10 : n < 10
    · rw [if_pos h10]
      refine ⟨by simp, ?_, ?_⟩
      · intro c hc
        simp only [List.mem_singleton] at hc
        subst hc
        exact (digitChar_facts n h10).2
      · have := (digitChar_facts n h10).1
        unfold digitsToInt
        simp only [List.foldl_cons, List.foldl_nil]
        omega
    · rw [if_neg h10]
      have hrec : n / 10 < fuel := by
        have h1 : n / 10 < n := Nat.div_lt_self (by omega) (by norm_num)
        omega
      obtain ⟨hne, hdig, hval⟩ := ih (n / 10) hrec
      refine ⟨by simp, ?_, ?_⟩
      · intro c hc
        rw [List.mem_append] at hc
        rcases hc with hc | hc
        · exact hdig c hc
        · simp only [List.mem_singleton] at hc
          subst hc
          exact (digitChar_facts (n % 10) (Nat.mod_lt _ (by norm_num))).2
      · rw [digitsToInt_append, hval]
        have := (digitChar_facts (n % 10) (Nat.mod_lt _ (by norm_num))).1
        have hdiv : n = (n / 10) * 10 + n % 10 := by omega
        omega

theorem natDigits_ne_nil (n : Nat) : natDigits n ≠ [] :=
  (natDigitsGo_spec (n + 1) n (by omega)).1

theorem natDigits_all_digit (n : Nat) : ∀ c ∈ natDigits n, c.isDigit = true :=
  (natDigitsGo_spec (n + 1) n (by omega)).2.1

theorem digitsToInt_natDigits (n : Nat) : digitsToInt (natDigits n) = (n : Int) :=
  (natDigitsGo_spec (n + 1) n (by omega)).2.2

theorem takeWhile_append_all (p : Char → Bool) : ∀ (l1 l2 : List Char),
    (∀ c ∈ l1, p c = true) →
    (l1 ++ l2).takeWhile p = l1 ++ l2.takeWhile p := by
  intro l1
  induction l1 with
  | nil => intro l2 _; rfl
  | cons a t ih =>
    intro l2 h
    rw [List.cons_append,
      List.takeWhile_cons_of_pos (h a (by simp)),
      ih l2 (fun c hc => h c (by simp [hc])), List.cons_append]

theorem dropWhile_append_all (p : Char → Bool) : ∀ (l1 l2 : List Char),
    (∀ c ∈ l1, p c = true) →
    (l1 ++ l2).dropWhile p = l2.dropWhile p := by
  intro l1
  induction l1 with
  | nil => intro l2 _; rfl
  | cons a t ih =>
    intro l2 h
    rw [List.cons_append,
      List.dropWhile_cons_of_pos (h a (by simp)),
      ih l2 (fun c hc => h c (by simp [hc]))]

/-- One grouping step of `Cigar.__init__` on a digit run followed by a
non-digit run, with the remainder starting on a digit (or empty). -/
theorem cigarParse_step (ds sym rest : List Char)
    (hds : ds ≠ []) (hdig : ∀ c ∈ ds, c.isDigit = true)
    (hsym : sym ≠ []) (hsymnd : ∀ c ∈ sym, c.isDigit = false)
    (hr1 : rest.takeWhile (fun c => !c.isDigit) = [])
    (hr2 : rest.dropWhile (fun c => !c.isDigit) = rest) :
    cigarParseChars (ds ++ sym ++ rest) =
      match cigarParseChars rest with
      | none => none
      | some fs => some (⟨String.mk sym, digitsToInt ds⟩ :: fs) := by
  obtain ⟨d0, dtl, hdseq⟩ : ∃ d0 dtl, ds = d0 :: dtl := by
    cases ds with
    | nil => exact absurd rfl hds
    | cons a b => exact ⟨a, b, rfl⟩
  obtain ⟨s0, stl, hsymeq⟩ : ∃ s0 stl, sym = s0 :: stl := by
    cases sym with
    | nil => exact absurd rfl hsym
    | cons a b => exact ⟨a, b, rfl⟩
  have htw : (ds ++ sym ++ rest).takeWhile (fun c => c.isDigit) = ds := by
    rw [List.append_assoc, takeWhile_append_all _ ds (sym ++ rest) hdig]
    rw [hsymeq, List.cons_append,
      List.takeWhile_cons_of_neg (by
        have := hsymnd s0 (by rw [hsymeq]; simp)
        simp [this]),
      List.append_nil]
  have hdw : (ds ++ sym ++ rest).dropWhile (fun c => c.isDigit) = sym ++ rest := by
    rw [List.append_assoc, dropWhile_append_all _ ds (sym ++ rest) hdig]
    rw [hsymeq, List.cons_append,
      List.dropWhile_cons_of_neg (by
        have := hsymnd s0 (by rw [hsymeq]; simp)
        simp [this]), ← List.cons_append, ← hsymeq]
  have htw2 : (sym ++ rest).takeWhile (fun c => !c.isDigit) = sym := by
    rw [takeWhile_append_all _ sym rest
      (fun c hc => by simp [hsymnd c hc]), hr1, List.append_nil]
  have hdw2 : (sym ++ rest).dropWhile (fun c => !c.isDigit) = rest := by
    rw [dropWhile_append_all _ sym rest
      (fun c hc => by simp [hsymnd c hc]), hr2]
  have hshape : ds ++ sym ++ rest = d0 :: (dtl ++ sym ++ rest) := by
    rw [hdseq]
    simp
  have htwX : (d0 :: (dtl ++ sym ++ rest)).takeWhile (fun c => c.isDigit) = ds := by
    rw [← hshape]
    exact htw
  have hdwX : (d0 :: (dtl ++ sym ++ rest)).dropWhile (fun c => c.isDigit) =
      sym ++ rest := by
    rw [← hshape]
    exact hdw
  rw [hshape, cigarParseChars.eq_def]
  simp only [htwX, hdwX, htw2, hdw2]
  rw [if_neg hds, if_neg hsym]

/-- The head of a serialized well-formed operation list is a digit, so the
symbol-run grouping stops exactly at the symbol. -/
theorem serialize_head_digit (fs : List CigarFeature) (h : WFOps fs) :
    ((fs.map cigarFeatureChars).flatten).takeWhile (fun c => !c.isDigit) = [] ∧
    ((fs.map cigarFeatureChars).flatten).dropWhile (fun c => !c.isDigit) =
      (fs.map cigarFeatureChars).flatten := by
  rcases fs with _ | ⟨f, fs2⟩
  · exact ⟨rfl, rfl⟩
  obtain ⟨hsize, hlen1, hnd⟩ := h f (by simp)
  have hpos : ¬ f.size < 0 := by omega
  have hichars : intToChars f.size = natDigits f.size.toNat := by
    unfold intToChars
    rw [if_neg hpos]
  rcases hnd2 : natDigits f.size.toNat with _ | ⟨d0, dtl⟩
  · exact absurd hnd2 (natDigits_ne_nil _)
  have hd0 : d0.isDigit = true := by
    have := natDigits_all_digit f.size.toNat d0 (by rw [hnd2]; simp)
    exact this
  have hflat : ((f :: fs2).map cigarFeatureChars).flatten =
      d0 :: (dtl ++ f.symbol.toList ++ (fs2.map cigarFeatureChars).flatten) := by
    simp only [List.map_cons, List.flatten_cons]
    unfold cigarFeatureChars
    rw [hichars, hnd2]
    simp
  rw [hflat]
  constructor
  · rw [List.takeWhile_cons_of_neg (by simp [hd0])]
  · rw [List.dropWhile_cons_of_neg (by simp [hd0])]

theorem string_mk_toList (s : String) : String.mk s.toList = s := by
  cases s
  rfl

/-- Parsing the serialization of a well-formed operation list recovers the
list exactly. -/
theorem cigarParse_serialize : ∀ (fs : List CigarFeature), WFOps fs →
    cigarParseChars ((fs.map cigarFeatureChars).flatten) = some fs := by
  intro fs
  induction fs with
  | nil =>
    intro _
    simp only [List.map_nil, List.flatten_nil]
    rw [cigarParseChars.eq_def]
  | cons f fs2 ih =>
    intro h
    obtain ⟨hsize, hlen1, hnd⟩ := h f (by simp)
    have htail : WFOps fs2 := fun g hg => h g (by simp [hg])
    obtain ⟨c, hc⟩ := List.length_eq_one.mp hlen1
    have hpos : ¬ f.size < 0 := by omega
    have hichars : intToChars f.size = natDigits f.size.toNat := by
      unfold intToChars
      rw [if_neg hpos]
    have hflat : ((f :: fs2).map cigarFeatureChars).flatten =
        natDigits f.size.toNat ++ [c] ++ (fs2.map cigarFeatureChars).flatten := by
      simp only [List.map_cons, List.flatten_cons]
      unfold cigarFeatureChars
      rw [hichars, hc, List.append_assoc]
    rw [hflat]
    obtain ⟨hr1, hr2⟩ := serialize_head_digit fs2 htail
    rw [cigarParse_step (natDigits f.size.toNat) [c]
      ((fs2.map cigarFeatureChars).flatten) (natDigits_ne_nil _)
      (natDigits_all_digit _) (by simp)
      (by
        intro x hx
        simp only [List.mem_singleton] at hx
        subst hx
        exact hnd x (by rw [hc]; simp))
      hr1 hr2]
    rw [ih htail]
    have hsym : String.mk [c] = f.symbol := by
      rw [← hc, string_mk_toList]
    have hval : digitsToInt (natDigits f.size.toNat) = f.size := by
      rw [digitsToInt_natDigits]
      omega
    rw [hsym, hval]

/--
C8: for every well-formed CIGAR operation string (the serialization of a list
of operations with positive lengths and single non-digit operation letters),
parsing with `Cigar` and serializing with `str()` reproduces the original
string exactly, preserving every length and the order of operations.
-/
theorem c8_cigar_roundtrip (s : String) (fs : List CigarFeature)
    (hwf : WFOps fs) (hs : s = cigarToString fs) :
    ∃ fs2, cigarOfString s = some fs2 ∧ cigarToString fs2 = s := by
  refine ⟨fs, ?_, hs.symm⟩
  rw [hs]
  unfold cigarOfString cigarToString
  exact cigarParse_serialize fs hwf

/-- Witness for C8 at the operation string `"76M24S"`. -/
theorem c8_cigar_roundtrip_witness :
    ∃ fs2, cigarOfString "76M24S" = some fs2 ∧ cigarToString fs2 = "76M24S" :=
  c8_cigar_roundtrip "76M24S" [⟨"M", 76⟩, ⟨"S", 24⟩] (by decide) (by decide)

end Isopipe
